import Mathlib

/-!
Verification of the core of a set-associative cache simulator.

The simulator models a cache as an array of sets, each set an array of
lines carrying a valid bit, a tag and an age used for FIFO/LRU
replacement.  Demand reads and writes update hit/miss/traffic counters;
an optional next-block prefetch loads the sequentially following block
on a demand miss.  The definitions below are a direct shallow embedding
of the C functions, with machine unsigned integers rendered as `Nat`
and the fallible index search rendered as `Option`.
-/

namespace CacheSim

/-- One cache line: valid bit, tag and replacement-order age
(mirrors `CacheLine` in the source). -/
structure CacheLine where
  valid : Bool
  tag : Nat
  age : Nat
deriving Repr, DecidableEq

/-- Default line value used with `List.getD`; it is invalid, matching a
line that does not exist. -/
def dfl : CacheLine := ⟨false, 0, 0⟩

/-- Cache state: geometry, policy, the sets-by-lines storage and the four
statistics counters (mirrors `Cache` in the source). -/
structure Cache where
  sets_num : Nat
  set_lines : Nat
  block_size : Nat
  block_bits : Nat
  set_bits : Nat
  policy : Nat
  lines : List (List CacheLine)
  hits : Nat
  misses : Nat
  reads : Nat
  writes : Nat
deriving Repr, DecidableEq

/-- Replacement policy identifier for FIFO (source value 0). -/
def POLICY_FIFO : Nat := 0

/-- Replacement policy identifier for LRU (source value 1). -/
def POLICY_LRU : Nat := 1

/-- Fuel-driven integer log2 loop body: mirrors the `while (x > 1) x >>= 1`
loop of `log2_int`; the fuel is an upper bound on the iteration count. -/
def log2_aux : Nat → Nat → Nat
  | 0, _ => 0
  | fuel + 1, x => if x > 1 then log2_aux fuel (x / 2) + 1 else 0

/-- Integer log2 for powers of two (source `log2_int`); `x` itself is
enough fuel since the argument halves each iteration. -/
def log2_int (x : Nat) : Nat := log2_aux x x

/-- Source `create_cache`: derives the geometry fields, zeroes the
counters and builds `sets_num` sets of `associativity` invalid lines. -/
def create_cache (cache_size associativity block_size policy : Nat) : Cache :=
  { block_size := block_size
    block_bits := log2_int block_size
    set_lines := associativity
    sets_num := cache_size / (associativity * block_size)
    set_bits := log2_int (cache_size / (associativity * block_size))
    policy := policy
    hits := 0
    misses := 0
    reads := 0
    writes := 0
    lines := List.replicate (cache_size / (associativity * block_size))
      (List.replicate associativity dfl) }

/-- Source `get_block_id`: shift off the block offset bits. -/
def get_block_id (c : Cache) (address : Nat) : Nat :=
  address >>> c.block_bits

/-- Source `get_set_index`: mask the block id with `set_bits` low bits
(the mask is forced to 0 when `set_bits = 0`, as in the source). -/
def get_set_index (c : Cache) (address : Nat) : Nat :=
  let block_id := get_block_id c address
  let mask := if c.set_bits = 0 then 0 else (1 <<< c.set_bits) - 1
  block_id &&& mask

/-- Source `get_tag`: shift off block offset and set index bits. -/
def get_tag (c : Cache) (address : Nat) : Nat :=
  address >>> (c.block_bits + c.set_bits)

/-- Index-accumulating scan of one set for the first valid line holding
`tag` (the loop body of source `find_line`). -/
def find_idx_from : List CacheLine → Nat → Nat → Option Nat
  | [], _, _ => none
  | l :: rest, tag, i =>
    if l.valid && l.tag == tag then some i else find_idx_from rest tag (i + 1)

/-- Source `find_line`: search the target set, `some line_idx` on a hit
and `none` for the source's -1 miss sentinel. -/
def find_line (c : Cache) (address : Nat) : Option Nat :=
  find_idx_from (c.lines.getD (get_set_index c address) []) (get_tag c address) 0

/-- The body of the shared aging loop: invalid lines are skipped, the
line at index `keep` gets age 0 and every other valid line ages by one. -/
def ageTransform (i keep : Nat) (l : CacheLine) : CacheLine :=
  if !l.valid then l
  else if i = keep then { l with age := 0 }
  else { l with age := l.age + 1 }

/-- The shared aging loop (used verbatim at source lines 145-152 and
181-188); `i` is the index of the head line. -/
def age_others : List CacheLine → Nat → Nat → List CacheLine
  | [], _, _ => []
  | l :: rest, i, keep => ageTransform i keep l :: age_others rest (i + 1) keep

/-- Source `update_lru_on_access`: a no-op unless the policy is LRU, in
which case the accessed line is re-aged to 0 and its valid peers age. -/
def update_lru_on_access (c : Cache) (set_idx line_idx : Nat) : Cache :=
  if c.policy ≠ POLICY_LRU then c
  else { c with
          lines := c.lines.set set_idx
            (age_others (c.lines.getD set_idx []) 0 line_idx) }

/-- The victim-selection loop of source `load_block` (lines 161-174):
`i` is the index of the head, `replace_idx` and `max_age` the loop
state; the scan stops at the first invalid line, otherwise it keeps the
latest line whose age is at least the running maximum. -/
def scan_replace : List CacheLine → Nat → Int → Nat → Int × Nat
  | [], _, replace_idx, max_age => (replace_idx, max_age)
  | l :: rest, i, replace_idx, max_age =>
    if !l.valid then ((i : Int), max_age)
    else if max_age ≤ l.age then scan_replace rest (i + 1) (i : Int) l.age
    else scan_replace rest (i + 1) replace_idx max_age

/-- The slot index actually written by `load_block`: the scan result as
the array subscript (the source stores it in the `int replace_idx`). -/
def victim (s : List CacheLine) : Nat := (scan_replace s 0 (-1) 0).1.toNat

/-- The set-level effect of source `load_block`: select the victim slot,
mark it valid with the new tag, then run the insertion-time aging loop. -/
def insert_line (s : List CacheLine) (tag : Nat) : List CacheLine :=
  age_others
    (s.set (victim s) { s.getD (victim s) dfl with valid := true, tag := tag })
    0 (victim s)

/-- Source `load_block`: apply `insert_line` to the target set. -/
def load_block (c : Cache) (address : Nat) : Cache :=
  { c with
      lines := c.lines.set (get_set_index c address)
        (insert_line (c.lines.getD (get_set_index c address) [])
          (get_tag c address)) }

/-- Source `prefetch_next`: on absence of the sequentially next block,
count one memory read and load it; otherwise do nothing. -/
def prefetch_next (c : Cache) (address : Nat) : Cache :=
  let next_address := (get_block_id c address + 1) <<< c.block_bits
  match find_line c next_address with
  | some _ => c
  | none => load_block { c with reads := c.reads + 1 } next_address

/-- Source `simulate_read`: hit increments `hits` and applies the LRU
aging; miss increments `misses` and `reads`, loads the block and, when
enabled, prefetches the next block. -/
def simulate_read (c : Cache) (address : Nat) (prefetch : Bool) : Cache :=
  match find_line c address with
  | some line_idx =>
    update_lru_on_access { c with hits := c.hits + 1 }
      (get_set_index c address) line_idx
  | none =>
    let c1 := load_block { c with misses := c.misses + 1, reads := c.reads + 1 }
      address
    if prefetch then prefetch_next c1 address else c1

/-- Source `simulate_write`: hit increments `hits` and `writes` and
applies the LRU aging; miss increments `misses` and `reads`, loads the
block, then counts the write and optionally prefetches. -/
def simulate_write (c : Cache) (address : Nat) (prefetch : Bool) : Cache :=
  match find_line c address with
  | some line_idx =>
    update_lru_on_access { c with hits := c.hits + 1, writes := c.writes + 1 }
      (get_set_index c address) line_idx
  | none =>
    let c1 := load_block { c with misses := c.misses + 1, reads := c.reads + 1 }
      address
    let c2 := { c1 with writes := c1.writes + 1 }
    if prefetch then prefetch_next c2 address else c2

/-- A demand access from the trace: the operation kind. -/
inductive Op where
  | read
  | write
deriving Repr, DecidableEq

/-- One trace entry driven into a cache instance (the dispatch in the
source's trace loop). -/
def step (c : Cache) (prefetch : Bool) : Op × Nat → Cache
  | (Op.read, a) => simulate_read c a prefetch
  | (Op.write, a) => simulate_write c a prefetch

/-- Drive a whole trace through one cache instance in order. -/
def run (c : Cache) (prefetch : Bool) (ops : List (Op × Nat)) : Cache :=
  ops.foldl (fun acc e => step acc prefetch e) c

/-- Ghost-instrumented cache for reasoning about insertion order: the
real cache together with a per-line insertion timestamp and a global
insertion counter.  The ghost data records when each slot was last
written by `load_block`; the `cache` component always evolves exactly as
the real one (proved by the erasure theorems below). -/
structure GCache where
  cache : Cache
  stamps : List (List Nat)
  clock : Nat

/-- Ghost `load_block`: the real `load_block`, recording the current
clock as the written slot's insertion stamp. -/
def gload_block (g : GCache) (address : Nat) : GCache :=
  { cache := load_block g.cache address
    stamps := g.stamps.set (get_set_index g.cache address)
      ((g.stamps.getD (get_set_index g.cache address) []).set
        (victim (g.cache.lines.getD (get_set_index g.cache address) []))
        g.clock)
    clock := g.clock + 1 }

/-- Ghost `prefetch_next`: mirrors the source dispatch. -/
def gprefetch_next (g : GCache) (address : Nat) : GCache :=
  let next_address := (get_block_id g.cache address + 1) <<< g.cache.block_bits
  match find_line g.cache next_address with
  | some _ => g
  | none =>
    gload_block
      { g with cache := { g.cache with reads := g.cache.reads + 1 } }
      next_address

/-- Ghost `simulate_read`: mirrors the source dispatch; a hit touches no
stamp (the code inserts nothing on a hit). -/
def gsimulate_read (g : GCache) (address : Nat) (prefetch : Bool) : GCache :=
  match find_line g.cache address with
  | some line_idx =>
    { g with
        cache := update_lru_on_access { g.cache with hits := g.cache.hits + 1 }
          (get_set_index g.cache address) line_idx }
  | none =>
    let g1 := gload_block
      { g with
          cache := { g.cache with
            misses := g.cache.misses + 1, reads := g.cache.reads + 1 } }
      address
    if prefetch then gprefetch_next g1 address else g1

/-- Ghost `simulate_write`: mirrors the source dispatch. -/
def gsimulate_write (g : GCache) (address : Nat) (prefetch : Bool) : GCache :=
  match find_line g.cache address with
  | some line_idx =>
    { g with
        cache := update_lru_on_access
          { g.cache with
            hits := g.cache.hits + 1, writes := g.cache.writes + 1 }
          (get_set_index g.cache address) line_idx }
  | none =>
    let g1 := gload_block
      { g with
          cache := { g.cache with
            misses := g.cache.misses + 1, reads := g.cache.reads + 1 } }
      address
    let g2 := { g1 with
      cache := { g1.cache with writes := g1.cache.writes + 1 } }
    if prefetch then gprefetch_next g2 address else g2

/-- Ghost trace entry dispatch. -/
def gstep (g : GCache) (prefetch : Bool) : Op × Nat → GCache
  | (Op.read, a) => gsimulate_read g a prefetch
  | (Op.write, a) => gsimulate_write g a prefetch

/-- Ghost whole-trace run. -/
def grun (g : GCache) (prefetch : Bool) (ops : List (Op × Nat)) : GCache :=
  ops.foldl (fun acc e => gstep acc prefetch e) g

/-- Ghost initial state over a freshly constructed cache: no line is
valid, all stamps zero, clock zero. -/
def ginit (cache_size associativity block_size policy : Nat) : GCache :=
  { cache := create_cache cache_size associativity block_size policy
    stamps := List.replicate (cache_size / (associativity * block_size))
      (List.replicate associativity 0)
    clock := 0 }

/-- FIFO ghost invariant: the stamp store mirrors the shape of the line
store, every valid line's stamp is below the clock, and of any two valid
lines in one set the earlier-stamped (earlier-inserted) one has the
strictly larger age — ages reflect exactly the insertion order. -/
def ghost_inv (g : GCache) : Prop :=
  g.stamps.length = g.cache.lines.length ∧
  (∀ k, (g.stamps.getD k []).length = (g.cache.lines.getD k []).length) ∧
  (∀ k i, ((g.cache.lines.getD k []).getD i dfl).valid = true →
    (g.stamps.getD k []).getD i 0 < g.clock) ∧
  (∀ k i j, ((g.cache.lines.getD k []).getD i dfl).valid = true →
    ((g.cache.lines.getD k []).getD j dfl).valid = true →
    ((g.stamps.getD k []).getD i 0 < (g.stamps.getD k []).getD j 0 ↔
      ((g.cache.lines.getD k []).getD j dfl).age <
        ((g.cache.lines.getD k []).getD i dfl).age))

/-- No two distinct valid lines of a set hold the same tag. -/
def set_tags_unique (s : List CacheLine) : Prop :=
  ∀ i j, i < s.length → j < s.length → i ≠ j →
    (s.getD i dfl).valid = true → (s.getD j dfl).valid = true →
    (s.getD i dfl).tag ≠ (s.getD j dfl).tag

/-- Per-set tag uniqueness over the whole cache. -/
def cache_tags_unique (c : Cache) : Prop :=
  ∀ s ∈ c.lines, set_tags_unique s

/-- Number of valid lines of `s` other than line `L`. -/
def othersValidCount (s : List CacheLine) (L : Nat) : Nat :=
  (List.range s.length).countP
    (fun j => decide (j ≠ L) && (s.getD j dfl).valid)

/-- Number of invalid lines (free slots) of `s`. -/
def invalidCount (s : List CacheLine) : Nat :=
  (List.range s.length).countP (fun j => !(s.getD j dfl).valid)

/-- Number of lines of `s` other than `L` standing between `L` and its
eviction: the invalid slots (which insertions fill before evicting
anything) together with the valid lines whose age is strictly above the
age of line `L` (which are evicted before `L`). -/
def protectCount (s : List CacheLine) (L : Nat) : Nat :=
  (List.range s.length).countP
    (fun j => decide (j ≠ L) &&
      (!(s.getD j dfl).valid ||
        ((s.getD j dfl).valid &&
          decide ((s.getD L dfl).age < (s.getD j dfl).age))))

/-- Concrete cache with one two-line FIFO set whose lines are both valid
with equal ages (exercises the eviction tie-break). -/
def cA : Cache :=
  { sets_num := 1, set_lines := 2, block_size := 1, block_bits := 0,
    set_bits := 0, policy := POLICY_FIFO,
    lines := [[⟨true, 0, 5⟩, ⟨true, 1, 5⟩]],
    hits := 0, misses := 0, reads := 0, writes := 0 }

/-- Concrete LRU cache with one three-line set: two valid lines and one
invalid slot. -/
def cB : Cache :=
  { sets_num := 1, set_lines := 3, block_size := 1, block_bits := 0,
    set_bits := 0, policy := POLICY_LRU,
    lines := [[⟨true, 0, 3⟩, ⟨true, 1, 7⟩, ⟨false, 0, 0⟩]],
    hits := 0, misses := 0, reads := 0, writes := 0 }

/-- Concrete cache with one two-line set used to exercise the victim
scan bounds. -/
def cC : Cache :=
  { sets_num := 1, set_lines := 2, block_size := 1, block_bits := 0,
    set_bits := 0, policy := POLICY_FIFO,
    lines := [[⟨true, 4, 2⟩, ⟨false, 0, 0⟩]],
    hits := 0, misses := 0, reads := 0, writes := 0 }

/-- Concrete one-line FIFO cache holding a valid block with tag 0. -/
def cD : Cache :=
  { sets_num := 1, set_lines := 1, block_size := 1, block_bits := 0,
    set_bits := 0, policy := POLICY_FIFO,
    lines := [[⟨true, 0, 0⟩]],
    hits := 0, misses := 0, reads := 0, writes := 0 }

/-! Basic list access lemmas. -/

theorem getD_set_self {α : Type _} (s : List α) (r : Nat) (x d : α)
    (h : r < s.length) : (s.set r x).getD r d = x := by
  simp [List.getD_eq_getElem?_getD, List.getElem?_set, h]

theorem getD_set_ne {α : Type _} (s : List α) (r n : Nat) (x d : α)
    (h : n ≠ r) : (s.set r x).getD n d = s.getD n d := by
  simp [List.getD_eq_getElem?_getD, List.getElem?_set, Ne.symm h]

theorem getD_replicate {α : Type _} (n i : Nat) (x d : α) (h : i < n) :
    (List.replicate n x).getD i d = x := by
  simp [List.getD_eq_getElem?_getD, List.getElem?_replicate, h]

theorem getD_mem {α : Type _} (l : List α) (k : Nat) (d : α)
    (hk : k < l.length) : l.getD k d ∈ l := by
  have h1 : l.getD k d = l.get ⟨k, hk⟩ := by
    simp [List.getD_eq_getElem?_getD, List.getElem?_eq_getElem hk]
  rw [h1]
  exact List.get_mem l k hk

/-! Pointwise description of the aging loop. -/

theorem ageTransform_dfl (i k : Nat) : ageTransform i k dfl = dfl := rfl

theorem ageTransform_valid (i k : Nat) (l : CacheLine) :
    (ageTransform i k l).valid = l.valid := by
  unfold ageTransform; split; rfl; split <;> rfl

theorem ageTransform_tag (i k : Nat) (l : CacheLine) :
    (ageTransform i k l).tag = l.tag := by
  unfold ageTransform; split; rfl; split <;> rfl

theorem length_age_others (s : List CacheLine) (i k : Nat) :
    (age_others s i k).length = s.length := by
  induction s generalizing i with
  | nil => rfl
  | cons l t ih => simp [age_others, ih]

theorem getD_age_others (s : List CacheLine) (i k n : Nat) :
    (age_others s i k).getD n dfl = ageTransform (i + n) k (s.getD n dfl) := by
  induction s generalizing i n with
  | nil => simp [age_others, ageTransform_dfl]
  | cons l t ih =>
    cases n with
    | zero => simp [age_others]
    | succ m =>
      have h := ih (i + 1) m
      simp only [age_others, List.getD_cons_succ]
      rw [h]
      have : i + 1 + m = i + (m + 1) := by omega
      rw [this]

/-! Characterization of the set-lookup loop. -/

theorem find_idx_from_none (s : List CacheLine) (tag : Nat) :
    ∀ i, find_idx_from s tag i = none →
    ∀ n, n < s.length → (s.getD n dfl).valid = true →
      (s.getD n dfl).tag ≠ tag := by
  induction s with
  | nil => intro i _ n hn; simp at hn
  | cons l t ih =>
    intro i h n hn hv
    unfold find_idx_from at h
    by_cases hc : (l.valid && l.tag == tag) = true
    · simp [hc] at h
    · simp only [hc, if_false, Bool.if_false_left] at h
      cases n with
      | zero =>
        simp only [List.getD_cons_zero] at hv ⊢
        intro ht
        exact hc (by simp [hv, ht])
      | succ m =>
        have h2 : find_idx_from t tag (i + 1) = none := by
          by_cases hc2 : (l.valid && l.tag == tag) = true
          · exact absurd hc2 hc
          · unfold find_idx_from at h ⊢
            simpa [hc2] using h
        exact ih (i + 1) h2 m (by simpa using hn) (by simpa using hv)

theorem find_idx_from_some (s : List CacheLine) (tag : Nat) :
    ∀ i j, find_idx_from s tag i = some j →
    ∃ n, n < s.length ∧ j = i + n ∧ (s.getD n dfl).valid = true ∧
      (s.getD n dfl).tag = tag := by
  induction s with
  | nil => intro i j h; simp [find_idx_from] at h
  | cons l t ih =>
    intro i j h
    unfold find_idx_from at h
    by_cases hc : (l.valid && l.tag == tag) = true
    · simp only [hc, if_true] at h
      have hj : j = i := by cases h; rfl
      refine ⟨0, by simp, by omega, ?_, ?_⟩
      · simp only [List.getD_cons_zero]
        exact (Bool.and_elim_left hc)
      · simp only [List.getD_cons_zero]
        have := Bool.and_elim_right hc
        simpa using this
    · simp only [hc, if_false] at h
      obtain ⟨n, hn, hj, hv, ht⟩ := ih (i + 1) j h
      exact ⟨n + 1, by simpa using hn, by omega, by simpa using hv,
        by simpa using ht⟩

/-! Counter and geometry preservation facts. -/

theorem load_block_counts (c : Cache) (a : Nat) :
    (load_block c a).hits = c.hits ∧ (load_block c a).misses = c.misses ∧
    (load_block c a).reads = c.reads ∧ (load_block c a).writes = c.writes :=
  ⟨rfl, rfl, rfl, rfl⟩

theorem update_lru_counts (c : Cache) (s i : Nat) :
    (update_lru_on_access c s i).hits = c.hits ∧
    (update_lru_on_access c s i).misses = c.misses ∧
    (update_lru_on_access c s i).reads = c.reads ∧
    (update_lru_on_access c s i).writes = c.writes := by
  unfold update_lru_on_access
  split <;> exact ⟨rfl, rfl, rfl, rfl⟩

theorem prefetch_counts (c : Cache) (a : Nat) :
    (prefetch_next c a).hits = c.hits ∧
    (prefetch_next c a).misses = c.misses ∧
    (prefetch_next c a).writes = c.writes ∧
    c.reads ≤ (prefetch_next c a).reads := by
  cases h : find_line c ((get_block_id c a + 1) <<< c.block_bits) with
  | some v => simp [prefetch_next, h]
  | none =>
    simp only [prefetch_next, h]
    exact ⟨rfl, rfl, rfl, Nat.le_succ _⟩

/-! Characterization of the victim-selection scan. -/

theorem scan_invalid_exists (s : List CacheLine) :
    ∀ (i : Nat) (r : Int) (m : Nat), (∃ l ∈ s, l.valid = false) →
    ∃ j : Nat, j < s.length ∧
      (scan_replace s i r m).1 = ((i + j : Nat) : Int) ∧
      (s.getD j dfl).valid = false := by
  induction s with
  | nil => intro i r m h; simp at h
  | cons l t ih =>
    intro i r m h
    by_cases hv : l.valid = true
    · have ht : ∃ x ∈ t, x.valid = false := by
        rcases h with ⟨x, hx, hxv⟩
        rcases List.mem_cons.mp hx with hx0 | hmem
        · rw [hx0] at hxv; rw [hxv] at hv; exact absurd hv (by simp)
        · exact ⟨x, hmem, hxv⟩
      unfold scan_replace
      by_cases hc : m ≤ l.age
      · simp only [hv, Bool.not_true, Bool.false_eq_true, if_false, hc, if_true]
        obtain ⟨j, hj, hres, hjv⟩ := ih (i + 1) (i : Int) l.age ht
        refine ⟨j + 1, by simpa using Nat.succ_lt_succ hj, ?_, by simpa using hjv⟩
        rw [hres]
        congr 1
        omega
      · simp only [hv, Bool.not_true, Bool.false_eq_true, if_false, hc]
        obtain ⟨j, hj, hres, hjv⟩ := ih (i + 1) r m ht
        refine ⟨j + 1, by simpa using Nat.succ_lt_succ hj, ?_, by simpa using hjv⟩
        rw [hres]
        congr 1
        omega
    · have hv2 : l.valid = false := by simpa using hv
      unfold scan_replace
      simp only [hv2, Bool.not_false, if_true]
      exact ⟨0, by simp, by simp, by simpa using hv2⟩

theorem scan_all_valid (s : List CacheLine) :
    ∀ (i : Nat) (r : Int) (m : Nat), (∀ l ∈ s, l.valid = true) →
    (∃ j : Nat, j < s.length ∧
      (scan_replace s i r m).1 = ((i + j : Nat) : Int) ∧
      m ≤ (s.getD j dfl).age ∧
      (∀ k, k < s.length → (s.getD k dfl).age ≤ (s.getD j dfl).age) ∧
      (∀ k, j < k → k < s.length →
        (s.getD k dfl).age < (s.getD j dfl).age)) ∨
    ((scan_replace s i r m).1 = r ∧
      ∀ k, k < s.length → (s.getD k dfl).age < m) := by
  induction s with
  | nil => intro i r m _; right; exact ⟨rfl, by simp⟩
  | cons l t ih =>
    intro i r m hall
    have hv : l.valid = true := hall l (List.mem_cons_self _ _)
    have htail : ∀ x ∈ t, x.valid = true :=
      fun x hx => hall x (List.mem_cons_of_mem _ hx)
    unfold scan_replace
    simp only [hv, Bool.not_true, Bool.false_eq_true, if_false]
    by_cases hc : m ≤ l.age
    · simp only [hc, if_true]
      rcases ih (i + 1) (i : Int) l.age htail with
        ⟨j, hj, hres, hm, hmax, hlast⟩ | ⟨hres, hlt⟩
      · left
        refine ⟨j + 1, by simpa using Nat.succ_lt_succ hj, ?_, ?_, ?_, ?_⟩
        · rw [hres]; congr 1; omega
        · simpa using Nat.le_trans hc hm
        · intro k hk
          cases k with
          | zero => simpa using hm
          | succ k2 => simpa using hmax k2 (by simpa using hk)
        · intro k hk1 hk2
          cases k with
          | zero => omega
          | succ k2 => simpa using hlast k2 (by omega) (by simpa using hk2)
      · left
        refine ⟨0, by simp, by simpa using hres, by simpa using hc, ?_, ?_⟩
        · intro k hk
          cases k with
          | zero => simp
          | succ k2 =>
            simpa using Nat.le_of_lt (hlt k2 (by simpa using hk))
        · intro k hk1 hk2
          cases k with
          | zero => omega
          | succ k2 => simpa using hlt k2 (by simpa using hk2)
    · simp only [hc, if_false]
      rcases ih (i + 1) r m htail with
        ⟨j, hj, hres, hm, hmax, hlast⟩ | ⟨hres, hlt⟩
      · left
        refine ⟨j + 1, by simpa using Nat.succ_lt_succ hj, ?_, ?_, ?_, ?_⟩
        · rw [hres]; congr 1; omega
        · simpa using hm
        · intro k hk
          cases k with
          | zero =>
            simp only [List.getD_cons_zero, List.getD_cons_succ]
            omega
          | succ k2 => simpa using hmax k2 (by simpa using hk)
        · intro k hk1 hk2
          cases k with
          | zero => omega
          | succ k2 => simpa using hlast k2 (by omega) (by simpa using hk2)
      · right
        refine ⟨hres, ?_⟩
        intro k hk
        cases k with
        | zero => simp only [List.getD_cons_zero]; omega
        | succ k2 => simpa using hlt k2 (by simpa using hk)

theorem victim_invalid_exists (s : List CacheLine)
    (h : ∃ l ∈ s, l.valid = false) :
    victim s < s.length ∧ (s.getD (victim s) dfl).valid = false ∧
    (scan_replace s 0 (-1) 0).1 = (victim s : Int) := by
  obtain ⟨j, hj, hres, hjv⟩ := scan_invalid_exists s 0 (-1) 0 h
  have hval : victim s = j := by unfold victim; rw [hres]; simp
  rw [hval]
  exact ⟨hj, hjv, by rw [hres]; simp⟩

theorem victim_all_valid (s : List CacheLine) (hne : s ≠ [])
    (hall : ∀ l ∈ s, l.valid = true) :
    victim s < s.length ∧
    (∀ k, k < s.length →
      (s.getD k dfl).age ≤ (s.getD (victim s) dfl).age) ∧
    (∀ k, victim s < k → k < s.length →
      (s.getD k dfl).age < (s.getD (victim s) dfl).age) ∧
    (scan_replace s 0 (-1) 0).1 = (victim s : Int) := by
  rcases scan_all_valid s 0 (-1) 0 hall with
    ⟨j, hj, hres, _, hmax, hlast⟩ | ⟨_, hlt⟩
  · have hval : victim s = j := by unfold victim; rw [hres]; simp
    rw [hval]
    refine ⟨by simpa using hj, fun k hk => by simpa using hmax k hk,
      fun k h1 h2 => by simpa using hlast k h1 h2, by rw [hres]; simp⟩
  · exfalso
    have hlen : 0 < s.length := List.length_pos.mpr hne
    exact absurd (hlt 0 hlen) (by omega)

theorem victim_lt_length (s : List CacheLine) (hne : s ≠ []) :
    victim s < s.length := by
  by_cases hall : ∀ l ∈ s, l.valid = true
  · exact (victim_all_valid s hne hall).1
  · have hinv : ∃ l ∈ s, l.valid = false := by
      push_neg at hall
      obtain ⟨l, hl, hlv⟩ := hall
      exact ⟨l, hl, by simpa using hlv⟩
    exact (victim_invalid_exists s hinv).1

/-! Pointwise description of the insertion step. -/

theorem length_insert_line (s : List CacheLine) (t : Nat) :
    (insert_line s t).length = s.length := by
  unfold insert_line
  rw [length_age_others, List.length_set]

theorem insert_line_getD_victim (s : List CacheLine) (t : Nat)
    (h : victim s < s.length) :
    (insert_line s t).getD (victim s) dfl = ⟨true, t, 0⟩ := by
  unfold insert_line
  rw [getD_age_others, getD_set_self _ _ _ _ h]
  simp [ageTransform]

theorem insert_line_getD_ne (s : List CacheLine) (t n : Nat)
    (h : n ≠ victim s) :
    (insert_line s t).getD n dfl = ageTransform n (victim s) (s.getD n dfl) := by
  unfold insert_line
  rw [getD_age_others, getD_set_ne _ _ _ _ _ h, Nat.zero_add]

/-- Counting helper: if the elements counted by `q` are counted by `p`
except possibly the single element `r`, the `q` count exceeds the `p`
count by at most one on a duplicate-free list. -/
theorem countP_le_succ {α : Type _} [DecidableEq α] (l : List α) (r : α)
    (p q : α → Bool) (hnd : l.Nodup)
    (h : ∀ x ∈ l, q x = true → p x = true ∨ x = r) :
    l.countP q ≤ l.countP p + 1 := by
  induction l with
  | nil => simp
  | cons x tl ih =>
    rw [List.countP_cons, List.countP_cons]
    rcases List.nodup_cons.mp hnd with ⟨hx, hnd2⟩
    by_cases hxr : x = r
    · subst hxr
      have htail : tl.countP q ≤ tl.countP p := by
        apply List.countP_mono_left
        intro y hy hqy
        rcases h y (List.mem_cons_of_mem _ hy) hqy with hp | hyr
        · exact hp
        · exact absurd (hyr ▸ hy) hx
      have h1 : (if q x = true then 1 else 0) ≤ 1 := by split <;> omega
      have h2 : (0 : Nat) ≤ (if p x = true then 1 else 0) := Nat.zero_le _
      omega
    · have htail := ih hnd2 (fun y hy hq => h y (List.mem_cons_of_mem _ hy) hq)
      have hhead : (if q x = true then 1 else 0) ≤
          (if p x = true then 1 else 0) := by
        by_cases hqx : q x = true
        · rcases h x (List.mem_cons_self _ _) hqx with hp | hr2
          · simp [hqx, hp]
          · exact absurd hr2 hxr
        · simp [hqx]
      omega

/-- Counting helper: a count of a disjunction of two mutually exclusive
predicates is the sum of the two counts. -/
theorem countP_disjoint_or {α : Type _} (l : List α) (p q : α → Bool)
    (h : ∀ x ∈ l, ¬(p x = true ∧ q x = true)) :
    l.countP (fun x => p x || q x) = l.countP p + l.countP q := by
  induction l with
  | nil => simp
  | cons x tl ih =>
    rw [List.countP_cons, List.countP_cons, List.countP_cons]
    have htl := ih (fun y hy => h y (List.mem_cons_of_mem _ hy))
    have hx := h x (List.mem_cons_self _ _)
    have e1 : (if (p x || q x) = true then 1 else 0) =
        (if p x = true then 1 else 0) + (if q x = true then 1 else 0) := by
      by_cases hp : p x = true
      · have hq : ¬ q x = true := fun hq => hx ⟨hp, hq⟩
        simp [hp, hq]
      · by_cases hq : q x = true
        · simp [hp, hq]
        · simp [hp, hq]
    omega

/-- A valid line other than the victim keeps its valid bit and tag and
ages by one under an insertion. -/
theorem insert_line_getD_valid_ne (s : List CacheLine) (t j : Nat)
    (hj : j ≠ victim s) (hv : (s.getD j dfl).valid = true) :
    (insert_line s t).getD j dfl =
      { s.getD j dfl with age := (s.getD j dfl).age + 1 } := by
  rw [insert_line_getD_ne s t j hj]
  unfold ageTransform
  rw [hv]
  simp only [Bool.not_true, Bool.false_eq_true, if_false, if_neg hj]
  rw [hv]

/-- An invalid line other than the victim is untouched by an insertion. -/
theorem insert_line_getD_invalid_ne (s : List CacheLine) (t j : Nat)
    (hj : j ≠ victim s) (hv : (s.getD j dfl).valid = false) :
    (insert_line s t).getD j dfl = s.getD j dfl := by
  rw [insert_line_getD_ne s t j hj]
  unfold ageTransform
  rw [hv]
  simp

/-- One insertion into a set never touches line `L` while something else
protects it (an invalid slot to fill, or a valid line strictly older
than `L`): `L` keeps its valid bit and tag, the age-distinctness of `L`
is preserved, and the protection count drops by at most one. -/
theorem insert_line_step (s : List CacheLine) (L t : Nat)
    (hL : L < s.length) (hv : (s.getD L dfl).valid = true)
    (hd : ∀ j, j < s.length → j ≠ L → (s.getD j dfl).valid = true →
      (s.getD j dfl).age ≠ (s.getD L dfl).age)
    (hb : 1 ≤ protectCount s L) :
    (insert_line s t).length = s.length ∧
    ((insert_line s t).getD L dfl).valid = true ∧
    ((insert_line s t).getD L dfl).tag = (s.getD L dfl).tag ∧
    (∀ j, j < s.length → j ≠ L →
      ((insert_line s t).getD j dfl).valid = true →
      ((insert_line s t).getD j dfl).age ≠
        ((insert_line s t).getD L dfl).age) ∧
    protectCount s L ≤ protectCount (insert_line s t) L + 1 := by
  have hne : s ≠ [] := by
    intro h0
    rw [h0] at hL
    simp at hL
  have hb2 : 0 < (List.range s.length).countP
      (fun j => decide (j ≠ L) &&
        (!(s.getD j dfl).valid ||
          ((s.getD j dfl).valid &&
            decide ((s.getD L dfl).age < (s.getD j dfl).age)))) := by
    unfold protectCount at hb
    omega
  -- the victim slot is in range and is not L
  have hmain : victim s < s.length ∧ victim s ≠ L := by
    by_cases hall : ∀ l ∈ s, l.valid = true
    · obtain ⟨hlt, hmax, _, _⟩ := victim_all_valid s hne hall
      obtain ⟨j0, hj0mem, hj0⟩ := List.countP_pos_iff.mp hb2
      have hj0lt : j0 < s.length := List.mem_range.mp hj0mem
      simp only [Bool.and_eq_true, Bool.or_eq_true, decide_eq_true_eq] at hj0
      obtain ⟨hj0L, hj0disj⟩ := hj0
      have hj0v : (s.getD j0 dfl).valid = true :=
        hall _ (getD_mem s j0 dfl hj0lt)
      rcases hj0disj with hinv0 | ⟨_, hj0a⟩
      · rw [hj0v] at hinv0
        simp at hinv0
      · refine ⟨hlt, ?_⟩
        intro hvL
        have h1 := hmax j0 hj0lt
        rw [hvL] at h1
        omega
    · have hinv : ∃ l ∈ s, l.valid = false := by
        push_neg at hall
        obtain ⟨l, hl, hlv⟩ := hall
        exact ⟨l, hl, by simpa using hlv⟩
      obtain ⟨hlt, hinvv, _⟩ := victim_invalid_exists s hinv
      refine ⟨hlt, ?_⟩
      intro hvL
      rw [hvL, hv] at hinvv
      simp at hinvv
  obtain ⟨hrlt, hrL⟩ := hmain
  have hLne : L ≠ victim s := fun h => hrL h.symm
  have hgetL : (insert_line s t).getD L dfl =
      { s.getD L dfl with age := (s.getD L dfl).age + 1 } :=
    insert_line_getD_valid_ne s t L hLne hv
  have hgetr : (insert_line s t).getD (victim s) dfl = ⟨true, t, 0⟩ :=
    insert_line_getD_victim s t hrlt
  have hLval : ((insert_line s t).getD L dfl).valid = true := by
    rw [hgetL]; exact hv
  have hLtag : ((insert_line s t).getD L dfl).tag = (s.getD L dfl).tag := by
    rw [hgetL]
  have hLage : ((insert_line s t).getD L dfl).age = (s.getD L dfl).age + 1 := by
    rw [hgetL]
  refine ⟨length_insert_line s t, hLval, hLtag, ?_, ?_⟩
  · -- age distinctness is preserved
    intro j hj hjL hjv
    rw [hLage]
    by_cases hjr : j = victim s
    · rw [hjr, hgetr]
      show (0 : Nat) ≠ (s.getD L dfl).age + 1
      omega
    · rw [insert_line_getD_ne s t j hjr] at hjv ⊢
      have hjvalid : (s.getD j dfl).valid = true := by
        rw [ageTransform_valid] at hjv
        exact hjv
      have hold := hd j hj hjL hjvalid
      unfold ageTransform
      rw [hjvalid]
      simp only [Bool.not_true, Bool.false_eq_true, if_false, if_neg hjr]
      show (s.getD j dfl).age + 1 ≠ (s.getD L dfl).age + 1
      omega
  · -- the protection count drops by at most one
    unfold protectCount
    rw [length_insert_line]
    apply countP_le_succ (List.range s.length) (victim s) _ _
      (List.nodup_range s.length)
    intro x hxmem hq
    simp only [Bool.and_eq_true, Bool.or_eq_true, decide_eq_true_eq] at hq
    obtain ⟨hxL, hxdisj⟩ := hq
    by_cases hxr : x = victim s
    · right; exact hxr
    · left
      simp only [Bool.and_eq_true, Bool.or_eq_true, decide_eq_true_eq]
      rcases hxdisj with hinvx | ⟨hvx, hax⟩
      · have hxinv : (s.getD x dfl).valid = false := by simpa using hinvx
        rw [insert_line_getD_invalid_ne s t x hxr hxinv]
        exact ⟨hxL, Or.inl hinvx⟩
      · rw [insert_line_getD_valid_ne s t x hxr hvx, hgetL]
        refine ⟨hxL, Or.inr ⟨?_, ?_⟩⟩
        · show (s.getD x dfl).valid = true
          exact hvx
        · show (s.getD L dfl).age + 1 < (s.getD x dfl).age + 1
          omega

/-- Iterated insertions never touch line `L` while enough protecting
lines (invalid slots or strictly older valid lines) remain. -/
theorem insert_fold_keeps (ts : List Nat) :
    ∀ (s : List CacheLine) (L : Nat),
    L < s.length → (s.getD L dfl).valid = true →
    (∀ j, j < s.length → j ≠ L → (s.getD j dfl).valid = true →
      (s.getD j dfl).age ≠ (s.getD L dfl).age) →
    ts.length ≤ protectCount s L →
    ((ts.foldl insert_line s).getD L dfl).valid = true ∧
    ((ts.foldl insert_line s).getD L dfl).tag = (s.getD L dfl).tag := by
  induction ts with
  | nil => intro s L _ hv _ _; exact ⟨hv, rfl⟩
  | cons t ts2 ih =>
    intro s L hL hv hd hb
    have hlenb : (t :: ts2).length = ts2.length + 1 := rfl
    have hb1 : 1 ≤ protectCount s L := by rw [hlenb] at hb; omega
    obtain ⟨hlen, hval, htag, hdist, hcount⟩ := insert_line_step s L t hL hv hd hb1
    have hL2 : L < (insert_line s t).length := by rw [hlen]; exact hL
    have hb2 : ts2.length ≤ protectCount (insert_line s t) L := by
      rw [hlenb] at hb
      omega
    have hd2 : ∀ j, j < (insert_line s t).length → j ≠ L →
        ((insert_line s t).getD j dfl).valid = true →
        ((insert_line s t).getD j dfl).age ≠
          ((insert_line s t).getD L dfl).age := by
      intro j hj
      exact hdist j (by rw [← hlen]; exact hj)
    obtain ⟨hval2, htag2⟩ := ih (insert_line s t) L hL2 hval hd2 hb2
    rw [List.foldl_cons]
    exact ⟨hval2, by rw [htag2, htag]⟩

/-! Cache-level reduction of one load and of a sequence of loads to the
set-level insertion. -/

theorem getD_of_ge {α : Type _} (l : List α) (n : Nat) (d : α)
    (h : l.length ≤ n) : l.getD n d = d := by
  simp [List.getD_eq_getElem?_getD, List.getElem?_eq_none h]

theorem insert_line_nil (t : Nat) : insert_line [] t = [] := rfl

theorem load_block_getD (c : Cache) (b k : Nat) :
    (load_block c b).lines.getD k [] =
      if k = get_set_index c b then
        insert_line (c.lines.getD k []) (get_tag c b)
      else c.lines.getD k [] := by
  unfold load_block
  by_cases hk : k = get_set_index c b
  · rw [if_pos hk, hk]
    by_cases hlt : get_set_index c b < c.lines.length
    · exact getD_set_self _ _ _ _ hlt
    · have hge : c.lines.length ≤ get_set_index c b := by omega
      rw [List.set_eq_of_length_le hge, getD_of_ge _ _ _ hge, insert_line_nil]
  · rw [if_neg hk]
    exact getD_set_ne _ _ _ _ _ hk

theorem load_block_lines_length (c : Cache) (b : Nat) :
    (load_block c b).lines.length = c.lines.length := by
  unfold load_block
  exact List.length_set _ _ _

theorem foldl_load_block_getD (addrs : List Nat) :
    ∀ (c : Cache) (k : Nat), (∀ b ∈ addrs, get_set_index c b = k) →
    (addrs.foldl load_block c).lines.getD k [] =
      (addrs.map (fun b => get_tag c b)).foldl insert_line
        (c.lines.getD k []) := by
  induction addrs with
  | nil => intro c k _; rfl
  | cons b bs ih =>
    intro c k h
    have hb : get_set_index c b = k := h b (List.mem_cons_self _ _)
    have hstep : (load_block c b).lines.getD k [] =
        insert_line (c.lines.getD k []) (get_tag c b) := by
      rw [load_block_getD, if_pos hb.symm]
    have hrest : ∀ x ∈ bs, get_set_index (load_block c b) x = k :=
      fun x hx => h x (List.mem_cons_of_mem _ hx)
    rw [List.foldl_cons, List.map_cons, List.foldl_cons,
      ih (load_block c b) k hrest, hstep]
    rfl

/-! Cache-level facts about the lookup. -/

theorem find_line_some (c : Cache) (a : Nat) (L : Nat)
    (h : find_line c a = some L) :
    L < (c.lines.getD (get_set_index c a) []).length ∧
    ((c.lines.getD (get_set_index c a) []).getD L dfl).valid = true ∧
    ((c.lines.getD (get_set_index c a) []).getD L dfl).tag = get_tag c a := by
  unfold find_line at h
  obtain ⟨n, hn, hL, hv, ht⟩ := find_idx_from_some _ _ 0 L h
  have hn0 : L = n := by omega
  rw [hn0]
  exact ⟨hn, hv, ht⟩

theorem find_line_none (c : Cache) (a : Nat)
    (h : find_line c a = none) :
    ∀ n, n < (c.lines.getD (get_set_index c a) []).length →
      ((c.lines.getD (get_set_index c a) []).getD n dfl).valid = true →
      ((c.lines.getD (get_set_index c a) []).getD n dfl).tag ≠
        get_tag c a := by
  unfold find_line at h
  exact find_idx_from_none _ _ 0 h

theorem find_line_some_set_lt (c : Cache) (a : Nat) (L : Nat)
    (h : find_line c a = some L) :
    get_set_index c a < c.lines.length := by
  by_contra hge
  have hge2 : c.lines.length ≤ get_set_index c a := by omega
  unfold find_line at h
  rw [getD_of_ge _ _ _ hge2] at h
  simp [find_idx_from] at h

/-! Lemmas about the hit path and the LRU aging update. -/

theorem simulate_read_hit (c : Cache) (a : Nat) (pf : Bool) (L : Nat)
    (h : find_line c a = some L) :
    simulate_read c a pf =
      update_lru_on_access { c with hits := c.hits + 1 }
        (get_set_index c a) L := by
  unfold simulate_read
  rw [h]

theorem simulate_write_hit (c : Cache) (a : Nat) (pf : Bool) (L : Nat)
    (h : find_line c a = some L) :
    simulate_write c a pf =
      update_lru_on_access { c with hits := c.hits + 1, writes := c.writes + 1 }
        (get_set_index c a) L := by
  unfold simulate_write
  rw [h]

theorem update_lru_lru (c : Cache) (k i : Nat)
    (hpol : c.policy = POLICY_LRU) :
    update_lru_on_access c k i =
      { c with lines := c.lines.set k (age_others (c.lines.getD k []) 0 i) } := by
  unfold update_lru_on_access
  rw [if_neg (by rw [hpol]; simp)]

theorem update_lru_fields (c : Cache) (k i : Nat) :
    (update_lru_on_access c k i).block_bits = c.block_bits ∧
    (update_lru_on_access c k i).set_bits = c.set_bits ∧
    (update_lru_on_access c k i).policy = c.policy ∧
    (update_lru_on_access c k i).set_lines = c.set_lines := by
  unfold update_lru_on_access
  split <;> exact ⟨rfl, rfl, rfl, rfl⟩

theorem get_set_index_congr (c1 c2 : Cache)
    (h1 : c1.block_bits = c2.block_bits) (h2 : c1.set_bits = c2.set_bits)
    (b : Nat) : get_set_index c1 b = get_set_index c2 b := by
  unfold get_set_index get_block_id
  rw [h1, h2]

theorem get_tag_congr (c1 c2 : Cache)
    (h1 : c1.block_bits = c2.block_bits) (h2 : c1.set_bits = c2.set_bits)
    (b : Nat) : get_tag c1 b = get_tag c2 b := by
  unfold get_tag
  rw [h1, h2]

theorem age_others_getD_keep (s : List CacheLine) (L : Nat)
    (hv : (s.getD L dfl).valid = true) :
    (age_others s 0 L).getD L dfl = { s.getD L dfl with age := 0 } := by
  rw [getD_age_others, Nat.zero_add]
  unfold ageTransform
  rw [hv]
  simp only [Bool.not_true, Bool.false_eq_true, if_false, if_pos rfl]
  rw [hv]
  simp

theorem age_others_getD_other (s : List CacheLine) (L j : Nat) :
    (age_others s 0 L).getD j dfl = ageTransform j L (s.getD j dfl) := by
  rw [getD_age_others, Nat.zero_add]

/-- After the LRU re-aging of a hit on line `L`, line `L` has the
strictly smallest age among the valid lines of its set. -/
theorem age_others_strict_min (s : List CacheLine) (L : Nat)
    (hLv : (s.getD L dfl).valid = true) :
    ∀ j, j ≠ L → ((age_others s 0 L).getD j dfl).valid = true →
    ((age_others s 0 L).getD L dfl).age <
      ((age_others s 0 L).getD j dfl).age := by
  intro j hjL hjv
  rw [age_others_getD_keep s L hLv]
  rw [age_others_getD_other s L j] at hjv ⊢
  have hjvalid : (s.getD j dfl).valid = true := by
    rw [ageTransform_valid] at hjv
    exact hjv
  unfold ageTransform
  rw [hjvalid]
  simp only [Bool.not_true, Bool.false_eq_true, if_false, if_neg hjL]
  show ({ s.getD L dfl with age := 0 } : CacheLine).age < (s.getD j dfl).age + 1
  show (0 : Nat) < (s.getD j dfl).age + 1
  omega

/-- When line `L` is valid and strictly youngest among the valid lines,
the protection count splits into the other valid lines plus the invalid
slots. -/
theorem protect_count_split (s1 : List CacheLine) (L : Nat)
    (hv1 : (s1.getD L dfl).valid = true)
    (hstrict : ∀ j, j ≠ L → (s1.getD j dfl).valid = true →
      (s1.getD L dfl).age < (s1.getD j dfl).age) :
    protectCount s1 L = othersValidCount s1 L + invalidCount s1 := by
  unfold protectCount othersValidCount invalidCount
  have h1 : (List.range s1.length).countP (fun j => !(s1.getD j dfl).valid)
      = (List.range s1.length).countP
        (fun j => decide (j ≠ L) && !(s1.getD j dfl).valid) := by
    apply List.countP_congr
    intro x _
    simp only [Bool.and_eq_true, decide_eq_true_eq]
    constructor
    · intro hinv
      refine ⟨?_, hinv⟩
      intro hxL
      rw [hxL, hv1] at hinv
      simp at hinv
    · rintro ⟨_, hinv⟩
      exact hinv
  rw [h1]
  have h2 : (List.range s1.length).countP
      (fun j => decide (j ≠ L) &&
        (!(s1.getD j dfl).valid ||
          ((s1.getD j dfl).valid &&
            decide ((s1.getD L dfl).age < (s1.getD j dfl).age)))) =
      (List.range s1.length).countP
        (fun j => (decide (j ≠ L) && (s1.getD j dfl).valid) ||
          (decide (j ≠ L) && !(s1.getD j dfl).valid)) := by
    apply List.countP_congr
    intro x _
    simp only [Bool.and_eq_true, Bool.or_eq_true, decide_eq_true_eq]
    constructor
    · rintro ⟨hxL, hinv | ⟨hval, _⟩⟩
      · exact Or.inr ⟨hxL, hinv⟩
      · exact Or.inl ⟨hxL, hval⟩
    · rintro (⟨hxL, hval⟩ | ⟨hxL, hinv⟩)
      · exact ⟨hxL, Or.inr ⟨hval, hstrict x hxL hval⟩⟩
      · exact ⟨hxL, Or.inl hinv⟩
  rw [h2]
  apply countP_disjoint_or
  intro x _
  rintro ⟨hval, hinv⟩
  simp only [Bool.and_eq_true, decide_eq_true_eq] at hval hinv
  rw [hval.2] at hinv
  simp at hinv

/-! Exact per-access counter accounting. -/

theorem simulate_read_hit_counts (c : Cache) (a : Nat) (pf : Bool) (L : Nat)
    (h : find_line c a = some L) :
    (simulate_read c a pf).hits = c.hits + 1 ∧
    (simulate_read c a pf).misses = c.misses ∧
    (simulate_read c a pf).reads = c.reads ∧
    (simulate_read c a pf).writes = c.writes := by
  rw [simulate_read_hit c a pf L h]
  obtain ⟨h1, h2, h3, h4⟩ :=
    update_lru_counts { c with hits := c.hits + 1 } (get_set_index c a) L
  exact ⟨by rw [h1], by rw [h2], by rw [h3], by rw [h4]⟩

theorem simulate_write_hit_counts (c : Cache) (a : Nat) (pf : Bool) (L : Nat)
    (h : find_line c a = some L) :
    (simulate_write c a pf).hits = c.hits + 1 ∧
    (simulate_write c a pf).misses = c.misses ∧
    (simulate_write c a pf).reads = c.reads ∧
    (simulate_write c a pf).writes = c.writes + 1 := by
  rw [simulate_write_hit c a pf L h]
  obtain ⟨h1, h2, h3, h4⟩ :=
    update_lru_counts { c with hits := c.hits + 1, writes := c.writes + 1 }
      (get_set_index c a) L
  exact ⟨by rw [h1], by rw [h2], by rw [h3], by rw [h4]⟩

theorem simulate_read_miss_form (c : Cache) (a : Nat) (pf : Bool)
    (h : find_line c a = none) :
    simulate_read c a pf =
      if pf then
        prefetch_next
          (load_block { c with misses := c.misses + 1, reads := c.reads + 1 } a) a
      else load_block { c with misses := c.misses + 1, reads := c.reads + 1 } a := by
  unfold simulate_read
  rw [h]

theorem simulate_write_miss_form (c : Cache) (a : Nat) (pf : Bool)
    (h : find_line c a = none) :
    simulate_write c a pf =
      if pf then
        prefetch_next
          { load_block { c with misses := c.misses + 1, reads := c.reads + 1 } a
              with
            writes :=
              (load_block { c with misses := c.misses + 1, reads := c.reads + 1 }
                a).writes + 1 } a
      else
        { load_block { c with misses := c.misses + 1, reads := c.reads + 1 } a
            with
          writes :=
            (load_block { c with misses := c.misses + 1, reads := c.reads + 1 }
              a).writes + 1 } := by
  unfold simulate_write
  rw [h]

theorem simulate_read_miss_counts (c : Cache) (a : Nat) (pf : Bool)
    (h : find_line c a = none) :
    (simulate_read c a pf).hits = c.hits ∧
    (simulate_read c a pf).misses = c.misses + 1 ∧
    (simulate_read c a pf).writes = c.writes ∧
    c.reads + 1 ≤ (simulate_read c a pf).reads := by
  rw [simulate_read_miss_form c a pf h]
  cases pf with
  | false => exact ⟨rfl, rfl, rfl, Nat.le_refl _⟩
  | true =>
    simp only [if_true]
    obtain ⟨h1, h2, h3, h4⟩ := prefetch_counts
      (load_block { c with misses := c.misses + 1, reads := c.reads + 1 } a) a
    refine ⟨?_, ?_, ?_, by exact h4⟩
    · rw [h1]
      exact (load_block_counts
        { c with misses := c.misses + 1, reads := c.reads + 1 } a).1
    · rw [h2]
      exact (load_block_counts
        { c with misses := c.misses + 1, reads := c.reads + 1 } a).2.1
    · rw [h3]
      exact (load_block_counts
        { c with misses := c.misses + 1, reads := c.reads + 1 } a).2.2.2

theorem simulate_write_miss_counts (c : Cache) (a : Nat) (pf : Bool)
    (h : find_line c a = none) :
    (simulate_write c a pf).hits = c.hits ∧
    (simulate_write c a pf).misses = c.misses + 1 ∧
    (simulate_write c a pf).writes = c.writes + 1 ∧
    c.reads + 1 ≤ (simulate_write c a pf).reads := by
  rw [simulate_write_miss_form c a pf h]
  cases pf with
  | false => exact ⟨rfl, rfl, rfl, Nat.le_refl _⟩
  | true =>
    simp only [if_true]
    obtain ⟨h1, h2, h3, h4⟩ := prefetch_counts
      { load_block { c with misses := c.misses + 1, reads := c.reads + 1 } a
          with
        writes :=
          (load_block { c with misses := c.misses + 1, reads := c.reads + 1 }
            a).writes + 1 } a
    refine ⟨?_, ?_, ?_, by exact h4⟩
    · rw [h1]
      exact (load_block_counts
        { c with misses := c.misses + 1, reads := c.reads + 1 } a).1
    · rw [h2]
      exact (load_block_counts
        { c with misses := c.misses + 1, reads := c.reads + 1 } a).2.1
    · rw [h3]
      show (load_block { c with misses := c.misses + 1, reads := c.reads + 1 }
        a).writes + 1 = c.writes + 1
      rw [(load_block_counts
        { c with misses := c.misses + 1, reads := c.reads + 1 } a).2.2.2]

theorem simulate_read_miss_reads_nopf (c : Cache) (a : Nat)
    (h : find_line c a = none) :
    (simulate_read c a false).reads = c.reads + 1 := by
  rw [simulate_read_miss_form c a false h]
  simp only [Bool.false_eq_true, if_false]
  exact (load_block_counts
    { c with misses := c.misses + 1, reads := c.reads + 1 } a).2.2.1

theorem simulate_write_miss_reads_nopf (c : Cache) (a : Nat)
    (h : find_line c a = none) :
    (simulate_write c a false).reads = c.reads + 1 := by
  rw [simulate_write_miss_form c a false h]
  simp only [Bool.false_eq_true, if_false]
  exact (load_block_counts
    { c with misses := c.misses + 1, reads := c.reads + 1 } a).2.2.1

/-! Preservation of per-set tag uniqueness. -/

theorem uniq_transfer (s1 s2 : List CacheLine)
    (hlen : s2.length = s1.length)
    (hpt : ∀ n, (s2.getD n dfl).valid = (s1.getD n dfl).valid ∧
      (s2.getD n dfl).tag = (s1.getD n dfl).tag)
    (h : set_tags_unique s1) : set_tags_unique s2 := by
  intro i j hi hj hij hvi hvj
  rw [(hpt i).2, (hpt j).2]
  rw [hlen] at hi hj
  rw [(hpt i).1] at hvi
  rw [(hpt j).1] at hvj
  exact h i j hi hj hij hvi hvj

theorem set_tags_unique_age_others (s : List CacheLine) (k : Nat)
    (h : set_tags_unique s) : set_tags_unique (age_others s 0 k) := by
  apply uniq_transfer s _ (length_age_others s 0 k) _ h
  intro n
  rw [age_others_getD_other s k n]
  exact ⟨ageTransform_valid _ _ _, ageTransform_tag _ _ _⟩

theorem insert_line_unique (s : List CacheLine) (t : Nat)
    (h : set_tags_unique s)
    (hno : ∀ n, n < s.length → (s.getD n dfl).valid = true →
      (s.getD n dfl).tag ≠ t) :
    set_tags_unique (insert_line s t) := by
  intro i j hi hj hij hvi hvj
  rw [length_insert_line] at hi hj
  by_cases hir : i = victim s
  · have hjr : j ≠ victim s := by rw [← hir]; exact fun hh => hij hh.symm
    have hvic : victim s < s.length := by rw [← hir]; exact hi
    rw [hir, insert_line_getD_victim s t hvic]
    rw [insert_line_getD_ne s t j hjr] at hvj ⊢
    rw [ageTransform_valid] at hvj
    rw [ageTransform_tag]
    exact fun hh => hno j hj hvj hh.symm
  · rw [insert_line_getD_ne s t i hir] at hvi ⊢
    rw [ageTransform_valid] at hvi
    rw [ageTransform_tag]
    by_cases hjr : j = victim s
    · have hvic : victim s < s.length := by rw [← hjr]; exact hj
      rw [hjr, insert_line_getD_victim s t hvic]
      exact hno i hi hvi
    · rw [insert_line_getD_ne s t j hjr] at hvj ⊢
      rw [ageTransform_valid] at hvj
      rw [ageTransform_tag]
      exact h i j hi hj hij hvi hvj

theorem set_tags_unique_getD (c : Cache) (k : Nat)
    (h : cache_tags_unique c) : set_tags_unique (c.lines.getD k []) := by
  by_cases hk : k < c.lines.length
  · exact h _ (getD_mem c.lines k [] hk)
  · rw [getD_of_ge _ _ _ (by omega)]
    intro i j hi
    simp at hi

theorem cache_unique_update_lru (c : Cache) (k i : Nat)
    (h : cache_tags_unique c) :
    cache_tags_unique (update_lru_on_access c k i) := by
  unfold update_lru_on_access
  split
  · exact h
  · intro s hs
    rcases List.mem_or_eq_of_mem_set hs with hmem | heq
    · exact h s hmem
    · rw [heq]
      exact set_tags_unique_age_others _ _ (set_tags_unique_getD c k h)

theorem cache_unique_load_block (c : Cache) (a : Nat)
    (hfind : find_line c a = none) (h : cache_tags_unique c) :
    cache_tags_unique (load_block c a) := by
  intro s hs
  unfold load_block at hs
  rcases List.mem_or_eq_of_mem_set hs with hmem | heq
  · exact h s hmem
  · rw [heq]
    exact insert_line_unique _ _
      (set_tags_unique_getD c (get_set_index c a) h)
      (find_line_none c a hfind)

theorem cache_unique_prefetch (c : Cache) (a : Nat)
    (h : cache_tags_unique c) : cache_tags_unique (prefetch_next c a) := by
  cases hf : find_line c ((get_block_id c a + 1) <<< c.block_bits) with
  | some v =>
    simp only [prefetch_next, hf]
    exact h
  | none =>
    simp only [prefetch_next, hf]
    apply cache_unique_load_block
    · exact hf
    · exact h

theorem step_preserves_unique (c : Cache) (pf : Bool) (op : Op × Nat)
    (h : cache_tags_unique c) : cache_tags_unique (step c pf op) := by
  obtain ⟨k, a⟩ := op
  cases k with
  | read =>
    show cache_tags_unique (simulate_read c a pf)
    cases hf : find_line c a with
    | some L =>
      rw [simulate_read_hit c a pf L hf]
      exact cache_unique_update_lru _ _ _ h
    | none =>
      rw [simulate_read_miss_form c a pf hf]
      have h1 : cache_tags_unique
          (load_block { c with misses := c.misses + 1, reads := c.reads + 1 }
            a) := by
        apply cache_unique_load_block
        · exact hf
        · exact h
      cases pf with
      | false => simpa using h1
      | true =>
        simp only [if_true]
        exact cache_unique_prefetch _ _ h1
  | write =>
    show cache_tags_unique (simulate_write c a pf)
    cases hf : find_line c a with
    | some L =>
      rw [simulate_write_hit c a pf L hf]
      exact cache_unique_update_lru _ _ _ h
    | none =>
      rw [simulate_write_miss_form c a pf hf]
      have h1 : cache_tags_unique
          (load_block { c with misses := c.misses + 1, reads := c.reads + 1 }
            a) := by
        apply cache_unique_load_block
        · exact hf
        · exact h
      cases pf with
      | false => simpa using h1
      | true =>
        simp only [if_true]
        exact cache_unique_prefetch _ _ h1

theorem foldl_preserves_unique (pf : Bool) (ops : List (Op × Nat)) :
    ∀ c : Cache, cache_tags_unique c →
    cache_tags_unique (ops.foldl (fun acc e => step acc pf e) c) := by
  induction ops with
  | nil => intro c hc; exact hc
  | cons o os ih =>
    intro c hc
    rw [List.foldl_cons]
    exact ih _ (step_preserves_unique c pf o hc)

theorem create_cache_unique (cs assoc bs pol : Nat) :
    cache_tags_unique (create_cache cs assoc bs pol) := by
  intro s hs
  have hrep := List.eq_of_mem_replicate hs
  rw [hrep]
  intro i j hi hj hij hvi hvj
  rw [List.length_replicate] at hi
  rw [getD_replicate _ _ _ _ hi] at hvi
  simp [dfl] at hvi

/-! FIFO frame facts and whole-run counter accounting. -/

theorem update_lru_fifo (c : Cache) (k i : Nat)
    (hpol : c.policy = POLICY_FIFO) : update_lru_on_access c k i = c := by
  unfold update_lru_on_access
  rw [if_pos]
  rw [hpol]
  decide

theorem simulate_read_hit_lines_fifo (c : Cache) (a : Nat) (pf : Bool)
    (L : Nat) (hpol : c.policy = POLICY_FIFO) (h : find_line c a = some L) :
    (simulate_read c a pf).lines = c.lines := by
  rw [simulate_read_hit c a pf L h,
    update_lru_fifo { c with hits := c.hits + 1 } (get_set_index c a) L
      (by exact hpol)]

theorem simulate_write_hit_lines_fifo (c : Cache) (a : Nat) (pf : Bool)
    (L : Nat) (hpol : c.policy = POLICY_FIFO) (h : find_line c a = some L) :
    (simulate_write c a pf).lines = c.lines := by
  rw [simulate_write_hit c a pf L h,
    update_lru_fifo { c with hits := c.hits + 1, writes := c.writes + 1 }
      (get_set_index c a) L (by exact hpol)]

theorem load_block_lines_congr (c1 c2 : Cache) (b : Nat)
    (h1 : c1.block_bits = c2.block_bits) (h2 : c1.set_bits = c2.set_bits)
    (h3 : c1.lines = c2.lines) :
    (load_block c1 b).lines = (load_block c2 b).lines := by
  show c1.lines.set (get_set_index c1 b)
      (insert_line (c1.lines.getD (get_set_index c1 b) []) (get_tag c1 b)) =
    c2.lines.set (get_set_index c2 b)
      (insert_line (c2.lines.getD (get_set_index c2 b) []) (get_tag c2 b))
  rw [get_set_index_congr c1 c2 h1 h2, get_tag_congr c1 c2 h1 h2, h3]

theorem step_count_facts (c : Cache) (pf : Bool) (op : Op × Nat) :
    (step c pf op).hits + (step c pf op).misses = c.hits + c.misses + 1 ∧
    c.hits ≤ (step c pf op).hits ∧ c.misses ≤ (step c pf op).misses ∧
    c.reads ≤ (step c pf op).reads ∧ c.writes ≤ (step c pf op).writes := by
  obtain ⟨k, a⟩ := op
  cases k with
  | read =>
    have hs : step c pf (Op.read, a) = simulate_read c a pf := rfl
    rw [hs]
    cases hf : find_line c a with
    | some L =>
      obtain ⟨h1, h2, h3, h4⟩ := simulate_read_hit_counts c a pf L hf
      refine ⟨?_, ?_, ?_, ?_, ?_⟩ <;> omega
    | none =>
      obtain ⟨h1, h2, h3, h4⟩ := simulate_read_miss_counts c a pf hf
      refine ⟨?_, ?_, ?_, ?_, ?_⟩ <;> omega
  | write =>
    have hs : step c pf (Op.write, a) = simulate_write c a pf := rfl
    rw [hs]
    cases hf : find_line c a with
    | some L =>
      obtain ⟨h1, h2, h3, h4⟩ := simulate_write_hit_counts c a pf L hf
      refine ⟨?_, ?_, ?_, ?_, ?_⟩ <;> omega
    | none =>
      obtain ⟨h1, h2, h3, h4⟩ := simulate_write_miss_counts c a pf hf
      refine ⟨?_, ?_, ?_, ?_, ?_⟩ <;> omega

theorem run_hits_misses (pf : Bool) (ops : List (Op × Nat)) :
    ∀ c : Cache, (run c pf ops).hits + (run c pf ops).misses =
      c.hits + c.misses + ops.length := by
  induction ops with
  | nil => intro c; simp [run]
  | cons o os ih =>
    intro c
    unfold run at ih ⊢
    rw [List.foldl_cons]
    have hstep := (step_count_facts c pf o).1
    have hrest := ih (step c pf o)
    rw [List.length_cons]
    omega

/-! Erasure of the ghost instrumentation and preservation of the FIFO
insertion-order invariant. -/

theorem gload_block_cache (g : GCache) (a : Nat) :
    (gload_block g a).cache = load_block g.cache a := rfl

theorem gprefetch_next_cache (g : GCache) (a : Nat) :
    (gprefetch_next g a).cache = prefetch_next g.cache a := by
  cases hf : find_line g.cache
      ((get_block_id g.cache a + 1) <<< g.cache.block_bits) with
  | some v => simp only [gprefetch_next, prefetch_next, hf]
  | none => simp only [gprefetch_next, prefetch_next, hf, gload_block]

theorem gsimulate_read_cache (g : GCache) (a : Nat) (pf : Bool) :
    (gsimulate_read g a pf).cache = simulate_read g.cache a pf := by
  cases hf : find_line g.cache a with
  | some L => simp only [gsimulate_read, simulate_read, hf]
  | none =>
    simp only [gsimulate_read, simulate_read, hf]
    cases pf with
    | false => rfl
    | true =>
      simp only [if_true]
      rw [gprefetch_next_cache]
      rfl

theorem gsimulate_write_cache (g : GCache) (a : Nat) (pf : Bool) :
    (gsimulate_write g a pf).cache = simulate_write g.cache a pf := by
  cases hf : find_line g.cache a with
  | some L => simp only [gsimulate_write, simulate_write, hf]
  | none =>
    simp only [gsimulate_write, simulate_write, hf]
    cases pf with
    | false => rfl
    | true =>
      simp only [if_true]
      rw [gprefetch_next_cache]
      rfl

theorem gstep_cache (g : GCache) (pf : Bool) (op : Op × Nat) :
    (gstep g pf op).cache = step g.cache pf op := by
  obtain ⟨k, a⟩ := op
  cases k with
  | read => exact gsimulate_read_cache g a pf
  | write => exact gsimulate_write_cache g a pf

theorem grun_cache (pf : Bool) (ops : List (Op × Nat)) :
    ∀ g : GCache, (grun g pf ops).cache = run g.cache pf ops := by
  induction ops with
  | nil => intro g; rfl
  | cons o os ih =>
    intro g
    show (grun (gstep g pf o) pf os).cache = run (step g.cache pf o) pf os
    rw [ih (gstep g pf o), gstep_cache]

theorem prefetch_policy (c : Cache) (a : Nat) :
    (prefetch_next c a).policy = c.policy := by
  cases hf : find_line c ((get_block_id c a + 1) <<< c.block_bits) with
  | some v => simp only [prefetch_next, hf]
  | none => simp only [prefetch_next, hf]; rfl

theorem step_policy (c : Cache) (pf : Bool) (op : Op × Nat) :
    (step c pf op).policy = c.policy := by
  obtain ⟨k, a⟩ := op
  cases k with
  | read =>
    have hs : step c pf (Op.read, a) = simulate_read c a pf := rfl
    rw [hs]
    cases hf : find_line c a with
    | some L =>
      rw [simulate_read_hit c a pf L hf]
      exact (update_lru_fields _ _ _).2.2.1
    | none =>
      rw [simulate_read_miss_form c a pf hf]
      cases pf with
      | false => rfl
      | true =>
        simp only [if_true]
        rw [prefetch_policy]
        rfl
  | write =>
    have hs : step c pf (Op.write, a) = simulate_write c a pf := rfl
    rw [hs]
    cases hf : find_line c a with
    | some L =>
      rw [simulate_write_hit c a pf L hf]
      exact (update_lru_fields _ _ _).2.2.1
    | none =>
      rw [simulate_write_miss_form c a pf hf]
      cases pf with
      | false => rfl
      | true =>
        simp only [if_true]
        rw [prefetch_policy]
        rfl

theorem gload_block_stamps_getD (g : GCache) (a : Nat) (k : Nat) :
    (gload_block g a).stamps.getD k [] =
      if k = get_set_index g.cache a then
        (g.stamps.getD (get_set_index g.cache a) []).set
          (victim (g.cache.lines.getD (get_set_index g.cache a) []))
          g.clock
      else g.stamps.getD k [] := by
  unfold gload_block
  by_cases hk : k = get_set_index g.cache a
  · rw [if_pos hk, hk]
    by_cases hlt : get_set_index g.cache a < g.stamps.length
    · exact getD_set_self _ _ _ _ hlt
    · have hge : g.stamps.length ≤ get_set_index g.cache a := by omega
      rw [List.set_eq_of_length_le hge, getD_of_ge _ _ _ hge]
      rfl
  · rw [if_neg hk]
    exact getD_set_ne _ _ _ _ _ hk

theorem ghost_inv_of_eq (g g2 : GCache)
    (h1 : g2.cache.lines = g.cache.lines) (h2 : g2.stamps = g.stamps)
    (h3 : g2.clock = g.clock) (h : ghost_inv g) : ghost_inv g2 := by
  obtain ⟨a1, a2, a3, a4⟩ := h
  refine ⟨?_, ?_, ?_, ?_⟩
  · rw [h1, h2]; exact a1
  · intro k; rw [h1, h2]; exact a2 k
  · intro k i hv
    rw [h1] at hv
    rw [h2, h3]
    exact a3 k i hv
  · intro k i j hvi hvj
    rw [h1] at hvi hvj
    rw [h1, h2]
    exact a4 k i j hvi hvj

/-- A ghost insertion preserves the FIFO ghost invariant: the written
slot gets age 0 and the current clock as stamp (newest on both scales),
every other valid line of the set ages by one with its stamp kept, and
no other set changes. -/
theorem ghost_inv_load (g : GCache) (a : Nat) (hinv : ghost_inv g) :
    ghost_inv (gload_block g a) := by
  obtain ⟨hlen, hshape, hclock, horder⟩ := hinv
  have hglp : (gload_block g a).cache.lines.getD (get_set_index g.cache a) []
      = insert_line (g.cache.lines.getD (get_set_index g.cache a) [])
          (get_tag g.cache a) := by
    have h := load_block_getD g.cache a (get_set_index g.cache a)
    rw [if_pos rfl] at h
    exact h
  have hgln : ∀ k, k ≠ get_set_index g.cache a →
      (gload_block g a).cache.lines.getD k [] = g.cache.lines.getD k [] := by
    intro k hkne
    have h := load_block_getD g.cache a k
    rw [if_neg hkne] at h
    exact h
  have hstp : (gload_block g a).stamps.getD (get_set_index g.cache a) []
      = (g.stamps.getD (get_set_index g.cache a) []).set
          (victim (g.cache.lines.getD (get_set_index g.cache a) []))
          g.clock := by
    have h := gload_block_stamps_getD g a (get_set_index g.cache a)
    rw [if_pos rfl] at h
    exact h
  have hstn : ∀ k, k ≠ get_set_index g.cache a →
      (gload_block g a).stamps.getD k [] = g.stamps.getD k [] := by
    intro k hkne
    have h := gload_block_stamps_getD g a k
    rw [if_neg hkne] at h
    exact h
  have hckeq : (gload_block g a).clock = g.clock + 1 := rfl
  refine ⟨?_, ?_, ?_, ?_⟩
  · show (g.stamps.set _ _).length = (load_block g.cache a).lines.length
    rw [List.length_set, load_block_lines_length]
    exact hlen
  · intro k
    by_cases hk : k = get_set_index g.cache a
    · rw [hk, hglp, hstp, List.length_set, length_insert_line]
      exact hshape _
    · rw [hgln k hk, hstn k hk]
      exact hshape k
  · intro k i hvalid
    rw [hckeq]
    by_cases hk : k = get_set_index g.cache a
    · rw [hk] at hvalid ⊢
      rw [hglp] at hvalid
      rw [hstp]
      by_cases hse : g.cache.lines.getD (get_set_index g.cache a) [] = []
      · rw [hse, insert_line_nil] at hvalid
        rw [getD_of_ge _ _ _ (by simp)] at hvalid
        simp [dfl] at hvalid
      · have hrlt := victim_lt_length _ hse
        by_cases hir :
            i = victim (g.cache.lines.getD (get_set_index g.cache a) [])
        · rw [hir, getD_set_self _ _ _ _ (by rw [hshape _]; exact hrlt)]
          omega
        · rw [getD_set_ne _ _ _ _ _ hir]
          have hvold : ((g.cache.lines.getD (get_set_index g.cache a)
              []).getD i dfl).valid = true := by
            rw [insert_line_getD_ne _ _ _ hir, ageTransform_valid] at hvalid
            exact hvalid
          exact Nat.lt_succ_of_lt (hclock _ i hvold)
    · rw [hgln k hk] at hvalid
      rw [hstn k hk]
      exact Nat.lt_succ_of_lt (hclock k i hvalid)
  · intro k i j hvi hvj
    by_cases hk : k = get_set_index g.cache a
    · rw [hk] at hvi hvj ⊢
      rw [hglp] at hvi hvj ⊢
      rw [hstp]
      by_cases hse : g.cache.lines.getD (get_set_index g.cache a) [] = []
      · rw [hse, insert_line_nil] at hvi
        rw [getD_of_ge _ _ _ (by simp)] at hvi
        simp [dfl] at hvi
      · have hrlt := victim_lt_length _ hse
        have hstlen :
            victim (g.cache.lines.getD (get_set_index g.cache a) []) <
            (g.stamps.getD (get_set_index g.cache a) []).length := by
          rw [hshape _]
          exact hrlt
        by_cases hir :
            i = victim (g.cache.lines.getD (get_set_index g.cache a) [])
        · by_cases hjr :
              j = victim (g.cache.lines.getD (get_set_index g.cache a) [])
          · rw [hir, hjr, getD_set_self _ _ _ _ hstlen]
            constructor
            · intro h
              omega
            · intro h
              have h2 : ((insert_line
                  (g.cache.lines.getD (get_set_index g.cache a) [])
                  (get_tag g.cache a)).getD
                  (victim (g.cache.lines.getD (get_set_index g.cache a) []))
                  dfl).age <
                ((insert_line
                  (g.cache.lines.getD (get_set_index g.cache a) [])
                  (get_tag g.cache a)).getD
                  (victim (g.cache.lines.getD (get_set_index g.cache a) []))
                  dfl).age := h
              omega
          · have hvjold : ((g.cache.lines.getD (get_set_index g.cache a)
                []).getD j dfl).valid = true := by
              rw [insert_line_getD_ne _ _ _ hjr, ageTransform_valid] at hvj
              exact hvj
            have hsj := hclock _ j hvjold
            rw [hir, getD_set_self _ _ _ _ hstlen,
              getD_set_ne _ _ _ _ _ hjr,
              insert_line_getD_victim _ _ hrlt,
              insert_line_getD_valid_ne _ _ _ hjr hvjold]
            constructor
            · intro h
              omega
            · intro h
              have h2 : ((g.cache.lines.getD (get_set_index g.cache a)
                  []).getD j dfl).age + 1 < 0 := h
              omega
        · by_cases hjr :
              j = victim (g.cache.lines.getD (get_set_index g.cache a) [])
          · have hviold : ((g.cache.lines.getD (get_set_index g.cache a)
                []).getD i dfl).valid = true := by
              rw [insert_line_getD_ne _ _ _ hir, ageTransform_valid] at hvi
              exact hvi
            have hsi := hclock _ i hviold
            rw [hjr, getD_set_self _ _ _ _ hstlen,
              getD_set_ne _ _ _ _ _ hir,
              insert_line_getD_victim _ _ hrlt,
              insert_line_getD_valid_ne _ _ _ hir hviold]
            constructor
            · intro _
              show (0 : Nat) <
                ((g.cache.lines.getD (get_set_index g.cache a) []).getD i
                  dfl).age + 1
              omega
            · intro _
              exact hsi
          · have hviold : ((g.cache.lines.getD (get_set_index g.cache a)
                []).getD i dfl).valid = true := by
              rw [insert_line_getD_ne _ _ _ hir, ageTransform_valid] at hvi
              exact hvi
            have hvjold : ((g.cache.lines.getD (get_set_index g.cache a)
                []).getD j dfl).valid = true := by
              rw [insert_line_getD_ne _ _ _ hjr, ageTransform_valid] at hvj
              exact hvj
            rw [getD_set_ne _ _ _ _ _ hir, getD_set_ne _ _ _ _ _ hjr,
              insert_line_getD_valid_ne _ _ _ hir hviold,
              insert_line_getD_valid_ne _ _ _ hjr hvjold]
            have hiff := horder _ i j hviold hvjold
            constructor
            · intro h
              have h2 := hiff.mp h
              show ((g.cache.lines.getD (get_set_index g.cache a) []).getD j
                  dfl).age + 1 <
                ((g.cache.lines.getD (get_set_index g.cache a) []).getD i
                  dfl).age + 1
              omega
            · intro h
              apply hiff.mpr
              have h2 : ((g.cache.lines.getD (get_set_index g.cache a)
                  []).getD j dfl).age + 1 <
                ((g.cache.lines.getD (get_set_index g.cache a) []).getD i
                  dfl).age + 1 := h
              omega
    · rw [hgln k hk] at hvi hvj ⊢
      rw [hstn k hk]
      exact horder k i j hvi hvj

theorem ghost_inv_prefetch (g : GCache) (a : Nat) (hinv : ghost_inv g) :
    ghost_inv (gprefetch_next g a) := by
  cases hf : find_line g.cache
      ((get_block_id g.cache a + 1) <<< g.cache.block_bits) with
  | some v =>
    simp only [gprefetch_next, hf]
    exact hinv
  | none =>
    simp only [gprefetch_next, hf]
    exact ghost_inv_load _ _ (ghost_inv_of_eq g _ rfl rfl rfl hinv)

theorem ghost_inv_step (g : GCache) (pf : Bool) (op : Op × Nat)
    (hpol : g.cache.policy = POLICY_FIFO) (hinv : ghost_inv g) :
    ghost_inv (gstep g pf op) := by
  obtain ⟨k, a⟩ := op
  cases k with
  | read =>
    show ghost_inv (gsimulate_read g a pf)
    cases hf : find_line g.cache a with
    | some L =>
      have hform : gsimulate_read g a pf =
          { g with
              cache := update_lru_on_access
                { g.cache with hits := g.cache.hits + 1 }
                (get_set_index g.cache a) L } := by
        unfold gsimulate_read
        rw [hf]
      rw [hform]
      refine ghost_inv_of_eq g _ ?_ rfl rfl hinv
      show (update_lru_on_access { g.cache with hits := g.cache.hits + 1 }
        (get_set_index g.cache a) L).lines = g.cache.lines
      rw [update_lru_fifo _ _ _
        (show ({ g.cache with hits := g.cache.hits + 1 } : Cache).policy =
          POLICY_FIFO from hpol)]
    | none =>
      have hform : gsimulate_read g a pf =
          (if pf then
            gprefetch_next
              (gload_block
                { g with
                    cache := { g.cache with
                      misses := g.cache.misses + 1,
                      reads := g.cache.reads + 1 } } a) a
          else
            gload_block
              { g with
                  cache := { g.cache with
                    misses := g.cache.misses + 1,
                    reads := g.cache.reads + 1 } } a) := by
        unfold gsimulate_read
        rw [hf]
      rw [hform]
      have hg1 : ghost_inv (gload_block
          { g with
              cache := { g.cache with
                misses := g.cache.misses + 1,
                reads := g.cache.reads + 1 } } a) :=
        ghost_inv_load _ _ (ghost_inv_of_eq g _ rfl rfl rfl hinv)
      cases pf with
      | false => simpa using hg1
      | true =>
        simp only [if_true]
        exact ghost_inv_prefetch _ _ hg1
  | write =>
    show ghost_inv (gsimulate_write g a pf)
    cases hf : find_line g.cache a with
    | some L =>
      have hform : gsimulate_write g a pf =
          { g with
              cache := update_lru_on_access
                { g.cache with
                  hits := g.cache.hits + 1, writes := g.cache.writes + 1 }
                (get_set_index g.cache a) L } := by
        unfold gsimulate_write
        rw [hf]
      rw [hform]
      refine ghost_inv_of_eq g _ ?_ rfl rfl hinv
      show (update_lru_on_access
        { g.cache with
          hits := g.cache.hits + 1, writes := g.cache.writes + 1 }
        (get_set_index g.cache a) L).lines = g.cache.lines
      rw [update_lru_fifo _ _ _
        (show ({ g.cache with
          hits := g.cache.hits + 1,
          writes := g.cache.writes + 1 } : Cache).policy =
          POLICY_FIFO from hpol)]
    | none =>
      have hform : gsimulate_write g a pf =
          (if pf then
            gprefetch_next
              { gload_block
                  { g with
                      cache := { g.cache with
                        misses := g.cache.misses + 1,
                        reads := g.cache.reads + 1 } } a with
                cache := { (gload_block
                  { g with
                      cache := { g.cache with
                        misses := g.cache.misses + 1,
                        reads := g.cache.reads + 1 } } a).cache with
                  writes := (gload_block
                    { g with
                        cache := { g.cache with
                          misses := g.cache.misses + 1,
                          reads := g.cache.reads + 1 } } a).cache.writes +
                    1 } } a
          else
            { gload_block
                { g with
                    cache := { g.cache with
                      misses := g.cache.misses + 1,
                      reads := g.cache.reads + 1 } } a with
              cache := { (gload_block
                { g with
                    cache := { g.cache with
                      misses := g.cache.misses + 1,
                      reads := g.cache.reads + 1 } } a).cache with
                writes := (gload_block
                  { g with
                      cache := { g.cache with
                        misses := g.cache.misses + 1,
                        reads := g.cache.reads + 1 } } a).cache.writes +
                  1 } }) := by
        unfold gsimulate_write
        rw [hf]
      rw [hform]
      have hg1 : ghost_inv (gload_block
          { g with
              cache := { g.cache with
                misses := g.cache.misses + 1,
                reads := g.cache.reads + 1 } } a) :=
        ghost_inv_load _ _ (ghost_inv_of_eq g _ rfl rfl rfl hinv)
      have hg2 : ghost_inv
          { gload_block
              { g with
                  cache := { g.cache with
                    misses := g.cache.misses + 1,
                    reads := g.cache.reads + 1 } } a with
            cache := { (gload_block
              { g with
                  cache := { g.cache with
                    misses := g.cache.misses + 1,
                    reads := g.cache.reads + 1 } } a).cache with
              writes := (gload_block
                { g with
                    cache := { g.cache with
                      misses := g.cache.misses + 1,
                      reads := g.cache.reads + 1 } } a).cache.writes +
                1 } } :=
        ghost_inv_of_eq _ _ rfl rfl rfl hg1
      cases pf with
      | false => simpa using hg2
      | true =>
        simp only [if_true]
        exact ghost_inv_prefetch _ _ hg2

theorem ghost_inv_run (pf : Bool) (ops : List (Op × Nat)) :
    ∀ g : GCache, g.cache.policy = POLICY_FIFO → ghost_inv g →
    ghost_inv (grun g pf ops) := by
  induction ops with
  | nil => intro g _ h; exact h
  | cons o os ih =>
    intro g hp h
    show ghost_inv (grun (gstep g pf o) pf os)
    apply ih
    · rw [gstep_cache, step_policy]
      exact hp
    · exact ghost_inv_step g pf o hp h

theorem create_lines_getD (cs assoc bs pol k i : Nat) :
    ((create_cache cs assoc bs pol).lines.getD k []).getD i dfl = dfl := by
  show ((List.replicate (cs / (assoc * bs))
    (List.replicate assoc dfl)).getD k []).getD i dfl = dfl
  by_cases hk : k < cs / (assoc * bs)
  · rw [getD_replicate _ _ _ _ hk]
    by_cases hi : i < assoc
    · exact getD_replicate _ _ _ _ hi
    · exact getD_of_ge _ _ _ (by rw [List.length_replicate]; omega)
  · have hge : (List.replicate (cs / (assoc * bs))
        (List.replicate assoc dfl)).length ≤ k := by
      rw [List.length_replicate]
      omega
    rw [getD_of_ge (List.replicate (cs / (assoc * bs))
      (List.replicate assoc dfl)) k [] hge]
    exact getD_of_ge _ _ _ (by simp)

theorem ghost_inv_init (cs assoc bs pol : Nat) :
    ghost_inv (ginit cs assoc bs pol) := by
  refine ⟨?_, ?_, ?_, ?_⟩
  · show (List.replicate (cs / (assoc * bs))
      (List.replicate assoc 0)).length =
      (List.replicate (cs / (assoc * bs))
        (List.replicate assoc dfl)).length
    rw [List.length_replicate, List.length_replicate]
  · intro k
    show ((List.replicate (cs / (assoc * bs))
      (List.replicate assoc 0)).getD k []).length =
      ((List.replicate (cs / (assoc * bs))
        (List.replicate assoc dfl)).getD k []).length
    by_cases hk : k < cs / (assoc * bs)
    · rw [getD_replicate _ _ _ _ hk, getD_replicate _ _ _ _ hk,
        List.length_replicate, List.length_replicate]
    · rw [getD_of_ge _ _ _ (by rw [List.length_replicate]; omega),
        getD_of_ge _ _ _ (by rw [List.length_replicate]; omega)]
      rfl
  · intro k i hv
    have hv2 : (((create_cache cs assoc bs pol).lines.getD k []).getD i
        dfl).valid = true := hv
    rw [create_lines_getD] at hv2
    simp [dfl] at hv2
  · intro k i j hvi _
    have hv2 : (((create_cache cs assoc bs pol).lines.getD k []).getD i
        dfl).valid = true := hvi
    rw [create_lines_getD] at hv2
    simp [dfl] at hv2

/-! Claim theorems. -/

/-- Claim C2, counterexample: with geometry 32/1/4 under FIFO and the trace
read 0x0, read 0x4, the run with prefetching enabled ends with hits = 1 and
misses = 1 while the run with prefetching disabled ends with hits = 0 and
misses = 2, so enabling prefetch does change the final `hits` and `misses`
counters for an identical trace and geometry, refuting the claim. -/
theorem prefetch_counter_noninterference_refuted :
    (run (create_cache 32 1 4 POLICY_FIFO) false
      [(Op.read, 0), (Op.read, 4)]).hits = 0 ∧
    (run (create_cache 32 1 4 POLICY_FIFO) false
      [(Op.read, 0), (Op.read, 4)]).misses = 2 ∧
    (run (create_cache 32 1 4 POLICY_FIFO) true
      [(Op.read, 0), (Op.read, 4)]).hits = 1 ∧
    (run (create_cache 32 1 4 POLICY_FIFO) true
      [(Op.read, 0), (Op.read, 4)]).misses = 1 := by
  decide

/-- Claim C2, amended: prefetching never interferes with the counters of
the access that triggers it.  Starting from the same cache state, a single
read or write processed with prefetch enabled produces exactly the same
`hits`, `misses` and `memory_writes` as with prefetch disabled, and its
`memory_reads` can only be larger.  (Over a whole trace the prefetched
blocks can turn later demand misses into hits, so the whole-run `hits` and
`misses` totals can differ.) -/
theorem prefetch_per_access_noninterference (c : Cache) (a : Nat) :
    ((simulate_read c a true).hits = (simulate_read c a false).hits ∧
     (simulate_read c a true).misses = (simulate_read c a false).misses ∧
     (simulate_read c a true).writes = (simulate_read c a false).writes ∧
     (simulate_read c a false).reads ≤ (simulate_read c a true).reads) ∧
    ((simulate_write c a true).hits = (simulate_write c a false).hits ∧
     (simulate_write c a true).misses = (simulate_write c a false).misses ∧
     (simulate_write c a true).writes = (simulate_write c a false).writes ∧
     (simulate_write c a false).reads ≤ (simulate_write c a true).reads) := by
  constructor
  · cases hf : find_line c a with
    | some L =>
      rw [simulate_read_hit c a true L hf, simulate_read_hit c a false L hf]
      exact ⟨rfl, rfl, rfl, Nat.le_refl _⟩
    | none =>
      obtain ⟨t1, t2, t3, t4⟩ := simulate_read_miss_counts c a true hf
      obtain ⟨f1, f2, f3, _⟩ := simulate_read_miss_counts c a false hf
      have f4 := simulate_read_miss_reads_nopf c a hf
      exact ⟨by rw [t1, f1], by rw [t2, f2], by rw [t3, f3],
        by rw [f4]; exact t4⟩
  · cases hf : find_line c a with
    | some L =>
      rw [simulate_write_hit c a true L hf, simulate_write_hit c a false L hf]
      exact ⟨rfl, rfl, rfl, Nat.le_refl _⟩
    | none =>
      obtain ⟨t1, t2, t3, t4⟩ := simulate_write_miss_counts c a true hf
      obtain ⟨f1, f2, f3, _⟩ := simulate_write_miss_counts c a false hf
      have f4 := simulate_write_miss_reads_nopf c a hf
      exact ⟨by rw [t1, f1], by rw [t2, f2], by rw [t3, f3],
        by rw [f4]; exact t4⟩

/-- Claim C3: starting from a freshly constructed cache, after any sequence
of read and write accesses, with or without prefetching, no set of the
cache holds two distinct valid lines with the same tag. -/
theorem tag_uniqueness_invariant
    (cache_size associativity block_size policy : Nat) (pf : Bool)
    (ops : List (Op × Nat)) :
    cache_tags_unique
      (run (create_cache cache_size associativity block_size policy) pf ops) := by
  unfold run
  exact foldl_preserves_unique pf ops _
    (create_cache_unique cache_size associativity block_size policy)

/-- Claim C5: over any trace driven into a freshly constructed cache the
final `hits + misses` equals the number of demand accesses processed, and
every access-protocol step leaves each of the four counters no smaller
than before. -/
theorem counters_accounting :
    (∀ (cache_size associativity block_size policy : Nat) (pf : Bool)
      (ops : List (Op × Nat)),
      (run (create_cache cache_size associativity block_size policy) pf
        ops).hits +
      (run (create_cache cache_size associativity block_size policy) pf
        ops).misses = ops.length) ∧
    (∀ (c : Cache) (pf : Bool) (op : Op × Nat),
      c.hits ≤ (step c pf op).hits ∧ c.misses ≤ (step c pf op).misses ∧
      c.reads ≤ (step c pf op).reads ∧ c.writes ≤ (step c pf op).writes) := by
  constructor
  · intro cs as bs pol pf ops
    have h := run_hits_misses pf ops (create_cache cs as bs pol)
    have h0 : (create_cache cs as bs pol).hits = 0 := rfl
    have h1 : (create_cache cs as bs pol).misses = 0 := rfl
    omega
  · intro c pf op
    obtain ⟨_, h2, h3, h4, h5⟩ := step_count_facts c pf op
    exact ⟨h2, h3, h4, h5⟩

/-- Claim C6: per demand access, a write miss adds exactly one memory read
and exactly one memory write, a write hit adds exactly one memory write
and no memory read, and a read hit adds neither; the `memory_writes`
updates hold for either prefetch setting, and the `memory_reads` counts
are those of the demand path itself (prefetch disabled). -/
theorem traffic_accounting (c : Cache) (a : Nat) (pf : Bool) :
    (simulate_write c a false).reads =
      c.reads + (if (find_line c a).isSome then 0 else 1) ∧
    (simulate_write c a pf).writes = c.writes + 1 ∧
    (simulate_read c a false).reads =
      c.reads + (if (find_line c a).isSome then 0 else 1) ∧
    (simulate_read c a pf).writes = c.writes := by
  cases hf : find_line c a with
  | some L =>
    obtain ⟨_, _, r3, r4⟩ := simulate_read_hit_counts c a pf L hf
    obtain ⟨_, _, _, w4⟩ := simulate_write_hit_counts c a pf L hf
    obtain ⟨_, _, r3f, _⟩ := simulate_read_hit_counts c a false L hf
    obtain ⟨_, _, w3f, _⟩ := simulate_write_hit_counts c a false L hf
    simp only [Option.isSome_some, if_true]
    refine ⟨?_, ?_, ?_, ?_⟩ <;> omega
  | none =>
    obtain ⟨_, _, r3, _⟩ := simulate_read_miss_counts c a pf hf
    obtain ⟨_, _, w3, _⟩ := simulate_write_miss_counts c a pf hf
    have rf := simulate_read_miss_reads_nopf c a hf
    have wf := simulate_write_miss_reads_nopf c a hf
    simp only [Option.isSome_none, Bool.false_eq_true, if_false]
    refine ⟨?_, ?_, ?_, ?_⟩ <;> omega

/-- Claim C7: under FIFO the access-time aging step is the identity, so a
hit (read or write) leaves every line of the cache — valid bit, tag and
age — unchanged and the outcome of any later block insertion (the
eviction choice included) is the same as if the hit had not happened;
moreover, over any FIFO run from a fresh cache, line ages reflect only
insertion order — of two valid lines in a set the earlier-inserted one
always has the strictly larger age (witnessed by ghost insertion stamps
whose cache component provably equals the real run) — so in a full set
the line chosen for eviction is the oldest-inserted valid line and it
has the highest age. -/
theorem fifo_hit_frame (c : Cache) (a : Nat) (pf : Bool) (L : Nat)
    (hpol : c.policy = POLICY_FIFO) (hfind : find_line c a = some L) :
    update_lru_on_access c (get_set_index c a) L = c ∧
    (simulate_read c a pf).lines = c.lines ∧
    (simulate_write c a pf).lines = c.lines ∧
    (∀ b : Nat, (load_block (simulate_read c a pf) b).lines =
      (load_block c b).lines) ∧
    (∀ (cache_size associativity block_size : Nat) (pf2 : Bool)
      (ops : List (Op × Nat)),
      (grun (ginit cache_size associativity block_size POLICY_FIFO) pf2
        ops).cache =
        run (create_cache cache_size associativity block_size POLICY_FIFO)
          pf2 ops ∧
      (∀ k i j,
        (((grun (ginit cache_size associativity block_size POLICY_FIFO) pf2
            ops).cache.lines.getD k []).getD i dfl).valid = true →
        (((grun (ginit cache_size associativity block_size POLICY_FIFO) pf2
            ops).cache.lines.getD k []).getD j dfl).valid = true →
        (((grun (ginit cache_size associativity block_size POLICY_FIFO) pf2
            ops).stamps.getD k []).getD i 0 <
          ((grun (ginit cache_size associativity block_size POLICY_FIFO) pf2
            ops).stamps.getD k []).getD j 0 ↔
          (((grun (ginit cache_size associativity block_size POLICY_FIFO)
              pf2 ops).cache.lines.getD k []).getD j dfl).age <
          (((grun (ginit cache_size associativity block_size POLICY_FIFO)
              pf2 ops).cache.lines.getD k []).getD i dfl).age)) ∧
      (∀ k,
        (grun (ginit cache_size associativity block_size POLICY_FIFO) pf2
          ops).cache.lines.getD k [] ≠ [] →
        (∀ l ∈ (grun (ginit cache_size associativity block_size POLICY_FIFO)
          pf2 ops).cache.lines.getD k [], l.valid = true) →
        ∀ i, i < ((grun (ginit cache_size associativity block_size
          POLICY_FIFO) pf2 ops).cache.lines.getD k []).length →
          ((grun (ginit cache_size associativity block_size POLICY_FIFO)
            pf2 ops).stamps.getD k []).getD
            (victim ((grun (ginit cache_size associativity block_size
              POLICY_FIFO) pf2 ops).cache.lines.getD k [])) 0 ≤
          ((grun (ginit cache_size associativity block_size POLICY_FIFO)
            pf2 ops).stamps.getD k []).getD i 0 ∧
          (((grun (ginit cache_size associativity block_size POLICY_FIFO)
            pf2 ops).cache.lines.getD k []).getD i dfl).age ≤
          (((grun (ginit cache_size associativity block_size POLICY_FIFO)
            pf2 ops).cache.lines.getD k []).getD
            (victim ((grun (ginit cache_size associativity block_size
              POLICY_FIFO) pf2 ops).cache.lines.getD k [])) dfl).age)) := by
  have h2 := simulate_read_hit_lines_fifo c a pf L hpol hfind
  refine ⟨update_lru_fifo c (get_set_index c a) L hpol, h2,
    simulate_write_hit_lines_fifo c a pf L hpol hfind, ?_, ?_⟩
  · intro b
    apply load_block_lines_congr
    · rw [simulate_read_hit c a pf L hfind]
      exact (update_lru_fields { c with hits := c.hits + 1 }
        (get_set_index c a) L).1
    · rw [simulate_read_hit c a pf L hfind]
      exact (update_lru_fields { c with hits := c.hits + 1 }
        (get_set_index c a) L).2.1
    · exact h2
  · intro cache_size associativity block_size pf2 ops
    have hinvr := ghost_inv_run pf2 ops
      (ginit cache_size associativity block_size POLICY_FIFO) rfl
      (ghost_inv_init cache_size associativity block_size POLICY_FIFO)
    obtain ⟨_, _, _, horder⟩ := hinvr
    refine ⟨grun_cache pf2 ops _, horder, ?_⟩
    intro k hne hall i hi
    obtain ⟨hlt, hmax, _, _⟩ := victim_all_valid _ hne hall
    have hvi : (((grun (ginit cache_size associativity block_size
        POLICY_FIFO) pf2 ops).cache.lines.getD k []).getD i dfl).valid =
        true := hall _ (getD_mem _ i dfl hi)
    have hvv : (((grun (ginit cache_size associativity block_size
        POLICY_FIFO) pf2 ops).cache.lines.getD k []).getD
        (victim ((grun (ginit cache_size associativity block_size
          POLICY_FIFO) pf2 ops).cache.lines.getD k [])) dfl).valid =
        true := hall _ (getD_mem _ _ dfl hlt)
    constructor
    · by_contra hcon
      push_neg at hcon
      have hages := (horder k i _ hvi hvv).mp hcon
      have h3 := hmax i hi
      omega
    · exact hmax i hi

/-- Witness for claim C7, on a concrete one-line FIFO cache holding tag 0
and a concrete one-read FIFO run: the aging update is the identity, hits
leave the storage unchanged, a later insertion behaves as if the hit had
not happened, and the ghost run's cache equals the real run. -/
theorem fifo_hit_frame_witness :
    update_lru_on_access cD (get_set_index cD 0) 0 = cD ∧
    (simulate_read cD 0 false).lines = cD.lines ∧
    (simulate_write cD 0 false).lines = cD.lines ∧
    (load_block (simulate_read cD 0 false) 1).lines =
      (load_block cD 1).lines ∧
    (grun (ginit 32 1 4 POLICY_FIFO) false [(Op.read, 0)]).cache =
      run (create_cache 32 1 4 POLICY_FIFO) false [(Op.read, 0)] := by
  obtain ⟨h1, h2, h3, h4, h5⟩ := fifo_hit_frame cD 0 false 0 rfl (by decide)
  exact ⟨h1, h2, h3, h4 1, (h5 32 1 4 false [(Op.read, 0)]).1⟩

/-- Claim C9: with geometry capacity 32, associativity 1, block size 4,
FIFO policy and prefetching disabled, the trace read 0x0, read 0x4,
read 0x0 ends with 1 hit, 2 misses, 2 memory reads and 0 memory writes. -/
theorem scenario_direct_mapped_fifo :
    (run (create_cache 32 1 4 POLICY_FIFO) false
      [(Op.read, 0), (Op.read, 4), (Op.read, 0)]).hits = 1 ∧
    (run (create_cache 32 1 4 POLICY_FIFO) false
      [(Op.read, 0), (Op.read, 4), (Op.read, 0)]).misses = 2 ∧
    (run (create_cache 32 1 4 POLICY_FIFO) false
      [(Op.read, 0), (Op.read, 4), (Op.read, 0)]).reads = 2 ∧
    (run (create_cache 32 1 4 POLICY_FIFO) false
      [(Op.read, 0), (Op.read, 4), (Op.read, 0)]).writes = 0 := by
  decide

/-- Claim C1, counterexample: in a two-line FIFO set whose lines are both
valid with the same age 5 (tags 0 and 1), loading a new block (tag 2)
selects line index 1, not the lowest index 0: the `>=` comparison makes
the LAST line reaching the observed maximum win, so the claimed
lowest-index tie-break is refuted. -/
theorem eviction_tie_lowest_index_refuted :
    (∀ l ∈ cA.lines.getD (get_set_index cA 2) [], l.valid = true) ∧
    ((cA.lines.getD (get_set_index cA 2) []).getD 0 dfl).age =
      ((cA.lines.getD (get_set_index cA 2) []).getD 1 dfl).age ∧
    (scan_replace (cA.lines.getD (get_set_index cA 2) []) 0 (-1) 0).1 = 1 ∧
    (load_block cA 2).lines = [[⟨true, 0, 6⟩, ⟨true, 2, 0⟩]] := by
  decide

/-- Claim C1, amended: on a miss that loads into a set with no invalid
line, the insertion algorithm evicts a valid line with the maximum age
value, and when several valid lines share that maximum it selects the one
with the highest line index (the last line reaching the observed maximum
during the index-order scan, since the scan uses a `>=` comparison);
the new tag is stored there and every other line keeps its tag and valid
bit. -/
theorem eviction_max_age_last_tie (c : Cache) (a : Nat)
    (hne : c.lines.getD (get_set_index c a) [] ≠ [])
    (hall : ∀ l ∈ c.lines.getD (get_set_index c a) [], l.valid = true) :
    ∃ j : Nat,
      (scan_replace (c.lines.getD (get_set_index c a) []) 0 (-1) 0).1 =
        (j : Int) ∧
      j < (c.lines.getD (get_set_index c a) []).length ∧
      (∀ k, k < (c.lines.getD (get_set_index c a) []).length →
        ((c.lines.getD (get_set_index c a) []).getD k dfl).age ≤
        ((c.lines.getD (get_set_index c a) []).getD j dfl).age) ∧
      (∀ k, j < k → k < (c.lines.getD (get_set_index c a) []).length →
        ((c.lines.getD (get_set_index c a) []).getD k dfl).age <
        ((c.lines.getD (get_set_index c a) []).getD j dfl).age) ∧
      ((load_block c a).lines.getD (get_set_index c a) []).getD j dfl =
        ⟨true, get_tag c a, 0⟩ ∧
      (∀ k, k ≠ j →
        ((((load_block c a).lines.getD (get_set_index c a) []).getD k
          dfl).tag =
          ((c.lines.getD (get_set_index c a) []).getD k dfl).tag ∧
        ((((load_block c a).lines.getD (get_set_index c a) []).getD k
          dfl).valid =
          ((c.lines.getD (get_set_index c a) []).getD k dfl).valid))) := by
  obtain ⟨hlt, hmax, hlast, hscan⟩ :=
    victim_all_valid (c.lines.getD (get_set_index c a) []) hne hall
  have hld : (load_block c a).lines.getD (get_set_index c a) [] =
      insert_line (c.lines.getD (get_set_index c a) []) (get_tag c a) := by
    rw [load_block_getD, if_pos rfl]
  refine ⟨victim (c.lines.getD (get_set_index c a) []), hscan, hlt, hmax,
    hlast, ?_, ?_⟩
  · rw [hld]
    exact insert_line_getD_victim _ _ hlt
  · intro k hk
    rw [hld, insert_line_getD_ne _ _ k hk]
    exact ⟨ageTransform_tag _ _ _, ageTransform_valid _ _ _⟩

/-- Witness for claim C1's amended theorem on the concrete full FIFO set
with equal ages. -/
theorem eviction_max_age_last_tie_witness :
    ∃ j : Nat,
      (scan_replace (cA.lines.getD (get_set_index cA 2) []) 0 (-1) 0).1 =
        (j : Int) ∧
      j < (cA.lines.getD (get_set_index cA 2) []).length ∧
      (∀ k, k < (cA.lines.getD (get_set_index cA 2) []).length →
        ((cA.lines.getD (get_set_index cA 2) []).getD k dfl).age ≤
        ((cA.lines.getD (get_set_index cA 2) []).getD j dfl).age) ∧
      (∀ k, j < k → k < (cA.lines.getD (get_set_index cA 2) []).length →
        ((cA.lines.getD (get_set_index cA 2) []).getD k dfl).age <
        ((cA.lines.getD (get_set_index cA 2) []).getD j dfl).age) ∧
      ((load_block cA 2).lines.getD (get_set_index cA 2) []).getD j dfl =
        ⟨true, get_tag cA 2, 0⟩ ∧
      (∀ k, k ≠ j →
        ((((load_block cA 2).lines.getD (get_set_index cA 2) []).getD k
          dfl).tag =
          ((cA.lines.getD (get_set_index cA 2) []).getD k dfl).tag ∧
        ((((load_block cA 2).lines.getD (get_set_index cA 2) []).getD k
          dfl).valid =
          ((cA.lines.getD (get_set_index cA 2) []).getD k dfl).valid))) :=
  eviction_max_age_last_tie cA 2 (by decide) (by decide)

/-- The set index is the block id reduced modulo the number of sets
determined by `set_bits`. -/
theorem get_set_index_eq_mod (c : Cache) (a : Nat) :
    get_set_index c a = (a >>> c.block_bits) % 2 ^ c.set_bits := by
  unfold get_set_index get_block_id
  by_cases h : c.set_bits = 0
  · simp [h, Nat.mod_one]
  · rw [if_neg h, Nat.one_shiftLeft]
    apply Nat.eq_of_testBit_eq
    intro i
    rw [Nat.testBit_and, Nat.testBit_two_pow_sub_one, Nat.testBit_mod_two_pow]
    exact Bool.and_comm _ _

/-- Claim C4: for every address, recombining the decomposed parts —
tag shifted left over the set-index and block-offset fields, or-ed with
the set index shifted over the block offset, or-ed with the low block
offset bits of the address — reproduces the address exactly. -/
theorem address_roundtrip (c : Cache) (a : Nat) :
    ((get_tag c a) <<< (c.block_bits + c.set_bits)) |||
    ((get_set_index c a) <<< c.block_bits) ||| (a % 2 ^ c.block_bits) = a := by
  rw [get_set_index_eq_mod]
  unfold get_tag
  apply Nat.eq_of_testBit_eq
  intro i
  simp only [Nat.testBit_lor, Nat.testBit_shiftLeft, Nat.testBit_shiftRight,
    Nat.testBit_mod_two_pow]
  by_cases h1 : i < c.block_bits
  · have h2 : ¬ (c.block_bits ≤ i) := by omega
    have h3 : ¬ (c.block_bits + c.set_bits ≤ i) := by omega
    simp [h1, h2, h3]
  · by_cases h2 : i < c.block_bits + c.set_bits
    · have hbb : c.block_bits ≤ i := by omega
      have h3 : ¬ (c.block_bits + c.set_bits ≤ i) := by omega
      have h4 : i - c.block_bits < c.set_bits := by omega
      have h5 : c.block_bits + (i - c.block_bits) = i := by omega
      simp [hbb, h3, h4, h5, h1]
    · have hbs : c.block_bits + c.set_bits ≤ i := by omega
      have h5 : (c.block_bits + c.set_bits) + (i - (c.block_bits + c.set_bits))
        = i := by omega
      have h6 : ¬ (i - c.block_bits < c.set_bits) := by omega
      simp [hbs, h5, h6, h1]

/-- Claim C10: whenever the target set holds `associativity >= 1` lines,
the victim-selection scan of `load_block` never returns the -1 sentinel:
its result is a line index in the range [0, associativity). -/
theorem replace_idx_in_range (c : Cache) (a : Nat)
    (hlen : (c.lines.getD (get_set_index c a) []).length = c.set_lines)
    (hassoc : 1 ≤ c.set_lines) :
    (scan_replace (c.lines.getD (get_set_index c a) []) 0 (-1) 0).1 ≠ -1 ∧
    0 ≤ (scan_replace (c.lines.getD (get_set_index c a) []) 0 (-1) 0).1 ∧
    (scan_replace (c.lines.getD (get_set_index c a) []) 0 (-1) 0).1.toNat
      < c.set_lines := by
  suffices h : victim (c.lines.getD (get_set_index c a) []) <
      (c.lines.getD (get_set_index c a) []).length ∧
      (scan_replace (c.lines.getD (get_set_index c a) []) 0 (-1) 0).1 =
        (victim (c.lines.getD (get_set_index c a) []) : Int) by
    obtain ⟨hlt, hscan⟩ := h
    rw [hscan]
    refine ⟨by omega, by omega, ?_⟩
    rw [Int.toNat_ofNat]
    omega
  have hne : c.lines.getD (get_set_index c a) [] ≠ [] := by
    intro h0
    rw [h0] at hlen
    simp at hlen
    omega
  by_cases hall : ∀ l ∈ c.lines.getD (get_set_index c a) [], l.valid = true
  · obtain ⟨hlt, _, _, hscan⟩ :=
      victim_all_valid (c.lines.getD (get_set_index c a) []) hne hall
    exact ⟨hlt, hscan⟩
  · have hinv : ∃ l ∈ c.lines.getD (get_set_index c a) [], l.valid = false := by
      push_neg at hall
      obtain ⟨l, hl, hlv⟩ := hall
      exact ⟨l, hl, by simpa using hlv⟩
    obtain ⟨hlt, _, hscan⟩ :=
      victim_invalid_exists (c.lines.getD (get_set_index c a) []) hinv
    exact ⟨hlt, hscan⟩

/-- Witness for claim C10 on a concrete two-line set with one invalid
line: the scan result is a valid index, not the sentinel. -/
theorem replace_idx_in_range_witness :
    (scan_replace (cC.lines.getD (get_set_index cC 0) []) 0 (-1) 0).1 ≠ -1 ∧
    0 ≤ (scan_replace (cC.lines.getD (get_set_index cC 0) []) 0 (-1) 0).1 ∧
    (scan_replace (cC.lines.getD (get_set_index cC 0) []) 0 (-1) 0).1.toNat
      < cC.set_lines :=
  replace_idx_in_range cC 0 (by decide) (by decide)

/-- Claim C8: under LRU, immediately after any hit on line L the accessed
line has the strictly minimum age among the valid lines of its set, and
on subsequent misses loading blocks into that set, line L is never
selected for eviction until every other line currently valid in the set
has been evicted first.  A miss fills an invalid slot when one exists and
otherwise evicts the oldest line, so evicting all the other valid lines
takes (number of invalid slots) + (number of other valid lines) misses;
over any miss sequence of at most that length — in particular over any
sequence during which some other hit-time-valid line has not yet been
evicted — L stays valid and keeps its tag. -/
theorem lru_hit_min_age_and_protected (c : Cache) (a : Nat) (pf : Bool)
    (L : Nat) (hpol : c.policy = POLICY_LRU)
    (hfind : find_line c a = some L) :
    (∀ j, j ≠ L →
      (((simulate_read c a pf).lines.getD (get_set_index c a) []).getD j
        dfl).valid = true →
      (((simulate_read c a pf).lines.getD (get_set_index c a) []).getD L
        dfl).age <
      (((simulate_read c a pf).lines.getD (get_set_index c a) []).getD j
        dfl).age) ∧
    (∀ addrs : List Nat,
      (∀ b ∈ addrs, get_set_index c b = get_set_index c a) →
      addrs.length ≤ othersValidCount
        ((simulate_read c a pf).lines.getD (get_set_index c a) []) L +
        invalidCount
          ((simulate_read c a pf).lines.getD (get_set_index c a) []) →
      ((((addrs.foldl load_block (simulate_read c a pf)).lines.getD
          (get_set_index c a) []).getD L dfl).valid = true ∧
       (((addrs.foldl load_block (simulate_read c a pf)).lines.getD
          (get_set_index c a) []).getD L dfl).tag = get_tag c a)) := by
  obtain ⟨hLlt, hLv, hLt⟩ := find_line_some c a L hfind
  have hsetlt := find_line_some_set_lt c a L hfind
  have hform := simulate_read_hit c a pf L hfind
  have hpol2 : ({ c with hits := c.hits + 1 } : Cache).policy = POLICY_LRU :=
    hpol
  have hlines : (simulate_read c a pf).lines =
      c.lines.set (get_set_index c a)
        (age_others (c.lines.getD (get_set_index c a) []) 0 L) := by
    rw [hform, update_lru_lru _ _ _ hpol2]
  have hs1 : (simulate_read c a pf).lines.getD (get_set_index c a) [] =
      age_others (c.lines.getD (get_set_index c a) []) 0 L := by
    rw [hlines]
    exact getD_set_self _ _ _ _ hsetlt
  have hstrict :=
    age_others_strict_min (c.lines.getD (get_set_index c a) []) L hLv
  constructor
  · intro j hjL hjv
    rw [hs1] at hjv ⊢
    exact hstrict j hjL hjv
  · intro addrs haddr hbud
    have hs1len :
        (age_others (c.lines.getD (get_set_index c a) []) 0 L).length =
        (c.lines.getD (get_set_index c a) []).length :=
      length_age_others _ 0 L
    have hL1 :
        L < (age_others (c.lines.getD (get_set_index c a) []) 0 L).length := by
      rw [hs1len]
      exact hLlt
    have hv1 :
        ((age_others (c.lines.getD (get_set_index c a) []) 0 L).getD L
          dfl).valid = true := by
      rw [age_others_getD_keep _ L hLv]
      exact hLv
    have htag1 :
        ((age_others (c.lines.getD (get_set_index c a) []) 0 L).getD L
          dfl).tag = get_tag c a := by
      rw [age_others_getD_keep _ L hLv]
      exact hLt
    have hd1 : ∀ j,
        j < (age_others (c.lines.getD (get_set_index c a) []) 0 L).length →
        j ≠ L →
        ((age_others (c.lines.getD (get_set_index c a) []) 0 L).getD j
          dfl).valid = true →
        ((age_others (c.lines.getD (get_set_index c a) []) 0 L).getD j
          dfl).age ≠
        ((age_others (c.lines.getD (get_set_index c a) []) 0 L).getD L
          dfl).age := by
      intro j _ hjL hjv
      have := hstrict j hjL hjv
      omega
    have hcnt :
        protectCount (age_others (c.lines.getD (get_set_index c a) []) 0 L) L =
        othersValidCount
          (age_others (c.lines.getD (get_set_index c a) []) 0 L) L +
        invalidCount (age_others (c.lines.getD (get_set_index c a) []) 0 L) :=
      protect_count_split _ L hv1 hstrict
    have hbb : (simulate_read c a pf).block_bits = c.block_bits := by
      rw [hform]
      exact (update_lru_fields _ _ _).1
    have hsb : (simulate_read c a pf).set_bits = c.set_bits := by
      rw [hform]
      exact (update_lru_fields _ _ _).2.1
    have haddr2 : ∀ b ∈ addrs,
        get_set_index (simulate_read c a pf) b = get_set_index c a := by
      intro b hb
      rw [get_set_index_congr _ c hbb hsb b]
      exact haddr b hb
    have hfold := foldl_load_block_getD addrs (simulate_read c a pf)
      (get_set_index c a) haddr2
    rw [hfold, hs1]
    have hbud2 :
        (addrs.map (fun b => get_tag (simulate_read c a pf) b)).length ≤
        protectCount (age_others (c.lines.getD (get_set_index c a) []) 0 L)
          L := by
      rw [List.length_map, hcnt]
      rw [hs1] at hbud
      exact hbud
    obtain ⟨hvk, htk⟩ := insert_fold_keeps
      (addrs.map (fun b => get_tag (simulate_read c a pf) b))
      (age_others (c.lines.getD (get_set_index c a) []) 0 L) L hL1 hv1 hd1
      hbud2
    exact ⟨hvk, by rw [htk, htag1]⟩

/-- Witness for claim C8 on a concrete LRU set with two valid lines and
one invalid slot: after the hit on line 0 its age is strictly below line
1's, and a two-miss sequence — which first fills the invalid slot and
only then evicts the other valid line — leaves line 0 valid with its
tag. -/
theorem lru_hit_min_age_and_protected_witness :
    ((((simulate_read cB 0 false).lines.getD (get_set_index cB 0) []).getD 0
        dfl).age <
      (((simulate_read cB 0 false).lines.getD (get_set_index cB 0) []).getD 1
        dfl).age) ∧
    (((([2, 3] : List Nat).foldl load_block
        (simulate_read cB 0 false)).lines.getD
        (get_set_index cB 0) []).getD 0 dfl).valid = true ∧
    (((([2, 3] : List Nat).foldl load_block
        (simulate_read cB 0 false)).lines.getD
        (get_set_index cB 0) []).getD 0 dfl).tag = get_tag cB 0 := by
  obtain ⟨h1, h2⟩ :=
    lru_hit_min_age_and_protected cB 0 false 0 rfl (by decide)
  obtain ⟨hv, ht⟩ := h2 [2, 3] (by decide) (by decide)
  exact ⟨h1 1 (by decide) (by decide), hv, ht⟩

end CacheSim
